import Mathlib

/-!
# Keyword counting with a pool of workers (`cmd/homework2/main.go`)

A shallow embedding of the program and the proofs of its specification.

Modelling conventions.

* A Go `string` is the list of its Unicode code points (`GoString`); the text
  handled is taken to be valid UTF-8, for which searching bytes and searching
  code points find the same occurrences.
* Go's `int` is modelled by `Int`: every count is bounded by the amount of
  text scanned, far below `2^63`. `strconv.Atoi` keeps its 64-bit range check.
* `map[string]int` is a list of entries with pairwise distinct keys (`GoMap`);
  reading an absent key gives `0`. Go leaves the iteration order of a map
  unspecified: `UpdateValue` walks the entries in list order and
  `UpdateValue_any_order` shows that the order does not matter.
* The goroutines of `run` (one reader, `numberOfProcesses` workers) are a
  state machine on `Pipeline`; a schedule is the list of the atomic steps
  taken, in order. The mutex of `keyWords` makes `UpdateValue` one atomic step.
* The case table of the Go library for runes above U+007F is a parameter
  (`caseTable`); ASCII letters are lowered as `unicode.ToLower` does.
-/

namespace Homework2

/-! ## Strings -/

/-- A Go string, as the sequence of its code points. -/
abbrev GoString := List Char

/-- Lower-casing of an ASCII rune: `'A'..'Z'` move to `'a'..'z'`. -/
def asciiLower (r : Char) : Char :=
  if 'A' ≤ r ∧ r ≤ 'Z' then Char.ofNat (r.toNat + 32) else r

/-- Go's `unicode.ToLower`: ASCII runes are lowered directly, the others
through the library's case table. -/
def unicode_ToLower (caseTable : Char → Char) (r : Char) : Char :=
  if r.toNat ≤ 0x7F then asciiLower r else caseTable r

/-- Go's `strings.ToLower`: every rune of the string is mapped to lower case. -/
def strings_ToLower (caseTable : Char → Char) (s : GoString) : GoString :=
  s.map (unicode_ToLower caseTable)

/-- Go's `strings.Index`: the index of the first occurrence of `substr` in `s`. -/
def strings_Index (s substr : GoString) : Option Nat :=
  if substr.isPrefixOf s then some 0
  else match s with
    | [] => none
    | _ :: t => (strings_Index t substr).map (· + 1)

/-- The loop of Go's `strings.Count` for a non-empty `substr`: find the next
occurrence, count it, and go on after its end. `fuel` bounds the number of
iterations; `countLoop_fuel` shows that the length of `s` is enough. -/
def countLoop (substr : GoString) : Nat → GoString → Nat
  | 0, _ => 0
  | fuel + 1, s =>
    match strings_Index s substr with
    | none => 0
    | some i => 1 + countLoop substr fuel (s.drop (i + substr.length))

/-- Go's `strings.Count`: the number of non-overlapping instances of `substr`
in `s`; for the empty `substr`, the number of code points of `s` plus one. -/
def strings_Count (s substr : GoString) : Nat :=
  if substr = [] then s.length + 1 else countLoop substr s.length s

/-- Go's `strconv.Atoi`: an optional sign followed by decimal digits, within
the range of a 64-bit `int`; `none` is the conversion error. -/
def strconv_Atoi (s : GoString) : Option Int :=
  let digits : GoString :=
    match s with
    | '-' :: t => t
    | '+' :: t => t
    | _ => s
  if digits = [] ∨ digits.all Char.isDigit = false then none
  else
    let n : Nat := digits.foldl (fun n ch => n * 10 + (ch.toNat - 48)) 0
    let v : Int := if s.head? = some '-' then -(n : Int) else (n : Int)
    if -(2 : Int) ^ 63 ≤ v ∧ v < (2 : Int) ^ 63 then some v else none

/-- The text `%d` prints for an `int`. -/
def fmtInt (n : Int) : GoString := (toString n).toList

/-! ## `map[string]int` -/

/-- A Go `map[string]int`: entries with pairwise distinct keys. -/
structure GoMap where
  entries : List (GoString × Int)
  nodupKeys : (entries.map Prod.fst).Nodup

/-- The value stored under `k` in a list of entries, if any. -/
def lookupEntry (k : GoString) : List (GoString × Int) → Option Int
  | [] => none
  | (k', v) :: t => if k' = k then some v else lookupEntry k t

namespace GoMap

/-- The empty map, `make(map[string]int, n)`. -/
def empty : GoMap := ⟨[], List.nodup_nil⟩

/-- The keys of the map. -/
def keys (m : GoMap) : List GoString := m.entries.map Prod.fst

/-- Reading `m[k]`: the stored value, or `0` when `k` has no entry. -/
def get (m : GoMap) (k : GoString) : Int := (lookupEntry k m.entries).getD 0

/-- The assignment `m[k] = v`. -/
def set (m : GoMap) (k : GoString) (v : Int) : GoMap where
  entries := (k, v) :: m.entries.filter (fun e => !decide (e.1 = k))
  nodupKeys := by
    rw [List.map_cons, List.nodup_cons]
    refine ⟨?_, m.nodupKeys.sublist ((List.filter_sublist _).map Prod.fst)⟩
    simp [List.mem_map, List.mem_filter]

/-- The sum of all values stored in the map. -/
def sumValues (m : GoMap) : Int := (m.entries.map Prod.snd).sum

end GoMap

/-! ## The tally -/

/-- The struct `keyWords` (its `sync.RWMutex` is the atomicity of
`UpdateValue` in the state machine below). -/
structure keyWords where
  wordCount : GoMap
  totalCount : Int

/-- The body of the loop of `UpdateValue`, for one `word` of the partial tally. -/
def mergeWord (currKeywordsCount : GoMap) (kw : keyWords) (word : GoString) : keyWords :=
  { wordCount := kw.wordCount.set word (kw.wordCount.get word + currKeywordsCount.get word)
    totalCount := kw.totalCount + currKeywordsCount.get word }

/-- The method `UpdateValue`: every word of the partial tally is added to its
cumulative count and to the total. -/
def keyWords.UpdateValue (kw : keyWords) (currKeywordsCount : GoMap) : keyWords :=
  currKeywordsCount.keys.foldl (mergeWord currKeywordsCount) kw

/-- The tally `run` creates: an empty map and total `0`. -/
def keyWords.init : keyWords := { wordCount := GoMap.empty, totalCount := 0 }

/-- Two tallies hold the same per-keyword counts and the same total. -/
def keyWords.Same (a b : keyWords) : Prop :=
  (∀ k, a.wordCount.get k = b.wordCount.get k) ∧ a.totalCount = b.totalCount

/-- The tally invariant: the total is the sum of the stored counts. -/
def keyWords.Inv (kw : keyWords) : Prop := kw.totalCount = kw.wordCount.sumValues

/-! ## The worker's computation for one line -/

/-- The count the worker stores for `word` on `readLine`:
`strings.Count(strings.ToLower(readLine), word)`. -/
def lineCount (caseTable : Char → Char) (readLine word : GoString) : Int :=
  (strings_Count (strings_ToLower caseTable readLine) word : Nat)

/-- The partial tally `currKeywordsCount` that `process` builds for one line. -/
def currKeywordsCount (caseTable : Char → Char) (keywordsList : List GoString)
    (readLine : GoString) : GoMap :=
  keywordsList.foldl (fun m word => m.set word (lineCount caseTable readLine word)) GoMap.empty

/-! ## The report -/

/-- The line `Printf("%s: %d\n", word, n)` prints, without its newline. -/
def reportLine (word : GoString) (n : Int) : GoString := word ++ ": ".toList ++ fmtInt n

/-- The function `write`: the lines it appends to standard output. -/
def write (keywordsList : List GoString) (keywords : keyWords) (stdout : List GoString) :
    List GoString :=
  keywordsList.foldl (fun out word => out ++ [reportLine word (keywords.wordCount.get word)])
    stdout ++ [reportLine "всего".toList keywords.totalCount]

/-! ## The goroutines of `run` -/

/-- Where a worker goroutine (`process`) stands. -/
inductive Worker where
  /-- Blocked at `for readLine := range in`. -/
  | waiting
  /-- Holds a received line whose partial tally is not merged yet. -/
  | holding (readLine : GoString)
  /-- Its loop has ended and `wg.Done()` has run. -/
  | exited
  deriving DecidableEq

/-- One atomic step of the concurrent execution. -/
inductive Action where
  /-- The caller cancels the context handed to `run`. -/
  | cancel
  /-- The reading goroutine (`read`) takes its next step. -/
  | read
  /-- Worker number `i` (`process`) takes its next step. -/
  | work (i : Nat)
  deriving DecidableEq

/-- The shared state of the goroutines started by `run`. -/
structure Pipeline where
  /-- The context is cancelled (`ctx.Done()` is closed). -/
  ctxDone : Bool
  /-- The lines of the input the scanner has not returned yet. -/
  scanner : List GoString
  /-- The line the reader is blocked sending on the unbuffered channel. -/
  sending : Option GoString
  /-- The reader has returned and `close(in)` has run. -/
  closed : Bool
  /-- The worker goroutines. -/
  workers : List Worker
  /-- The shared tally. -/
  keywords : keyWords

/-- One step of the function `read` (with the deferred `close(in)` of the
goroutine that calls it): blocked while its send is pending; otherwise it scans
the next line and, unless the context is done, offers it on the channel; at the
end of the input or on cancellation it returns and the channel is closed. -/
def read (st : Pipeline) : Pipeline :=
  if st.closed then st
  else
    match st.sending with
    | some _ => st
    | none =>
      match st.scanner with
      | [] => { st with closed := true }
      | readLine :: rest =>
        if st.ctxDone then { st with scanner := rest, closed := true }
        else { st with scanner := rest, sending := some readLine }

/-- One step of worker `i` running `process`: a waiting worker receives the
offered line, or leaves its loop when the channel is closed; a worker holding a
line builds `currKeywordsCount` and merges it with `UpdateValue`. -/
def process (caseTable : Char → Char) (keywordsList : List GoString) (i : Nat)
    (st : Pipeline) : Pipeline :=
  match st.workers[i]? with
  | none => st
  | some Worker.exited => st
  | some (Worker.holding readLine) =>
    { st with
      workers := st.workers.set i Worker.waiting
      keywords := st.keywords.UpdateValue (currKeywordsCount caseTable keywordsList readLine) }
  | some Worker.waiting =>
    match st.sending with
    | some readLine => { st with sending := none, workers := st.workers.set i (Worker.holding readLine) }
    | none => if st.closed then { st with workers := st.workers.set i Worker.exited } else st

/-- The effect of one action on the pipeline. -/
def step (caseTable : Char → Char) (keywordsList : List GoString) (st : Pipeline) :
    Action → Pipeline
  | Action.cancel => { st with ctxDone := true }
  | Action.read => read st
  | Action.work i => process caseTable keywordsList i st

/-- The pipeline after the actions of a schedule, in order. -/
def exec (caseTable : Char → Char) (keywordsList : List GoString) (sched : List Action)
    (st : Pipeline) : Pipeline :=
  sched.foldl (step caseTable keywordsList) st

/-- The pipeline as `run` starts it: the reader at the head of the input,
`numberOfProcesses` workers waiting, the tally empty. -/
def Pipeline.start (ctxDone : Bool) (lines : List GoString) (numberOfProcesses : Nat) : Pipeline :=
  { ctxDone := ctxDone, scanner := lines, sending := none, closed := false,
    workers := List.replicate numberOfProcesses Worker.waiting, keywords := keyWords.init }

/-- The condition on which `wg.Wait()` returns: every worker has called `wg.Done()`. -/
def Pipeline.allExited (st : Pipeline) : Bool := st.workers.all (fun w => w = Worker.exited)

/-- What a worker still has to merge, measured by `f`: `f` of the line it holds. -/
def Worker.owed (f : GoString → Int) : Worker → Int
  | Worker.holding readLine => f readLine
  | _ => 0

/-- The sum of `f` over the lines not merged yet: those the scanner has not
returned, the one offered on the channel and those held by the workers. -/
def Pipeline.owed (f : GoString → Int) (st : Pipeline) : Int :=
  (st.scanner.map f).sum + (match st.sending with | some readLine => f readLine | none => 0)
    + (st.workers.map (Worker.owed f)).sum

/-- The line a worker has received and not merged yet, if any. -/
def Worker.held : Worker → List GoString
  | Worker.holding readLine => [readLine]
  | _ => []

/-- The lines the workers have received and not merged yet. -/
def heldLines : List Worker → List GoString
  | [] => []
  | w :: ws => w.held ++ heldLines ws

/-- The bookkeeping of the goroutines is consistent: a closed channel offers
no line, a worker has left its loop only after the channel was closed, and
without cancellation the channel is closed only at the end of the input. -/
def Pipeline.Consistent (st : Pipeline) : Prop :=
  (st.closed = true → st.sending = none) ∧
  (Worker.exited ∈ st.workers → st.closed = true) ∧
  (st.ctxDone = false → st.closed = true → st.scanner = [])

/-- The state of the pipeline accounts for a prefix of the input: the lines
merged into the tally, the line offered on the channel and the lines held by
the workers are together the first `m` lines, and while the channel is open the
scanner holds the rest. -/
def Tracked (caseTable : Char → Char) (kws : List GoString) (lines : List GoString)
    (st : Pipeline) : Prop :=
  ∃ (merged : List GoString) (m : Nat),
    (∀ k, st.keywords.wordCount.get k
      = (merged.map (fun line => (currKeywordsCount caseTable kws line).get k)).sum) ∧
    st.keywords.totalCount
      = (merged.map (fun line => (currKeywordsCount caseTable kws line).sumValues)).sum ∧
    ((merged : Multiset GoString) + (st.sending.toList : List GoString)
        + (heldLines st.workers : List GoString) = (lines.take m : List GoString)) ∧
    (st.closed = false → st.scanner = lines.drop m)

/-- The schedule holds no cancellation. -/
def noCancel (sched : List Action) : Bool := sched.all (fun a => a ≠ Action.cancel)

/-- A schedule that runs the pipeline to its end with worker `0` alone taking
the lines: for each of the `n` lines the reader offers it, the worker receives
it and merges it; then the reader closes the channel and each of the
`numberOfProcesses` workers leaves its loop. -/
def serialSchedule : Nat → Nat → List Action
  | 0, numberOfProcesses => Action.read :: (List.range numberOfProcesses).map Action.work
  | n + 1, numberOfProcesses =>
    Action.read :: Action.work 0 :: Action.work 0 :: serialSchedule n numberOfProcesses

/-! ## `run` and `main` -/

/-- The files the program can open: `none` when `os.Open` fails, otherwise the
lines `bufio.Scanner` returns for the file. -/
abbrev FileSystem := GoString → Option (List GoString)

/-- The errors `run` returns. -/
inductive RunError where
  | ErrOpenFileKeywords
  | ErrOpenFileText
  /-- The error of the cancelled context, `context.Canceled`. -/
  | ctxCanceled
  deriving DecidableEq

/-- How a call of `run` ends under a given schedule. -/
inductive Outcome where
  /-- The call returned `err` (`none` is `nil`). -/
  | returned (err : Option RunError)
  /-- The call panicked (`wg.Add` with a negative count). -/
  | panicked
  /-- At the end of the schedule `wg.Wait()` is still waiting. -/
  | waiting
  deriving DecidableEq

/-- What a call of `run` printed on standard output and how it ended. -/
structure RunResult where
  stdout : List GoString
  outcome : Outcome
  deriving DecidableEq

/-- The function `getKeyWordsFromFile`. -/
def getKeyWordsFromFile (fs : FileSystem) (filePathKeywords : GoString) :
    Except RunError (List GoString) :=
  match fs filePathKeywords with
  | none => Except.error RunError.ErrOpenFileKeywords
  | some keywordsList => Except.ok keywordsList

/-- The function `run`, under the schedule `sched` of its goroutines; `ctx`
tells whether the context it is handed is already cancelled. -/
def run (caseTable : Char → Char) (fs : FileSystem) (sched : List Action) (ctx : Bool)
    (filePathInput filePathKeywords : GoString) (numberOfProcesses : Int) : RunResult :=
  match getKeyWordsFromFile fs filePathKeywords with
  | Except.error err => { stdout := [], outcome := Outcome.returned (some err) }
  | Except.ok keywordsList =>
    match fs filePathInput with
    | none => { stdout := [], outcome := Outcome.returned (some RunError.ErrOpenFileText) }
    | some input =>
      if numberOfProcesses < 0 then { stdout := [], outcome := Outcome.panicked }
      else
        let st := exec caseTable keywordsList sched
          (Pipeline.start ctx input numberOfProcesses.toNat)
        if st.allExited then
          { stdout := write keywordsList st.keywords []
            outcome := Outcome.returned (if st.ctxDone then some RunError.ctxCanceled else none) }
        else { stdout := [], outcome := Outcome.waiting }

/-- The text of an error of `run`, as `%v` prints it. -/
def RunError.text : RunError → GoString
  | RunError.ErrOpenFileKeywords => "error opening the file with keywords".toList
  | RunError.ErrOpenFileText => "error opening the file with text".toList
  | RunError.ctxCanceled => "context canceled".toList

/-- What the process leaves behind: both output streams and the exit status
(`none` while `run` has not returned). -/
structure ProcessResult where
  stdout : List GoString
  stderr : List GoString
  exitCode : Option Nat
  deriving DecidableEq

/-- The function `main`; `args` is `os.Args`. The context is
`context.Background()`, which nobody cancels, so cancellations are dropped
from the schedule. -/
def main (caseTable : Char → Char) (fs : FileSystem) (sched : List Action)
    (args : List GoString) : ProcessResult :=
  match args with
  | [_, filePathInput, filePathKeywords, arg3] =>
    match strconv_Atoi arg3 with
    | none =>
      { stdout := []
        stderr := ["Произошла ошибка: error converting number of processes to int ".toList]
        exitCode := some 1 }
    | some numberOfProcesses =>
      let r := run caseTable fs (sched.filter (fun a => a ≠ Action.cancel)) false
        filePathInput filePathKeywords numberOfProcesses
      match r.outcome with
      | Outcome.returned none => { stdout := r.stdout, stderr := [], exitCode := some 0 }
      | Outcome.returned (some err) =>
        { stdout := r.stdout, stderr := ["Произошла ошибка: ".toList ++ err.text], exitCode := some 1 }
      | Outcome.panicked =>
        { stdout := r.stdout
          stderr := ["panic: sync: negative WaitGroup counter".toList]
          exitCode := some 2 }
      | Outcome.waiting => { stdout := r.stdout, stderr := [], exitCode := none }
  | _ =>
    { stdout := [("Необходимо указать 3 аргумента: путь к файлу с текстом, " ++
        "путь к файлу с ключевыми словами, кол-во процессов.").toList]
      stderr := []
      exitCode := some 0 }

/-! ## Occurrences of a keyword, as the specification words them -/

/-- The positions `ps` are pairwise disjoint occurrences of `k` in `s`, listed
from left to right: each is at or after `lo`, `k` stands at each, and the next
one starts at or after the end of the one before. -/
def disjointOccs (s k : GoString) : Nat → List Nat → Bool
  | _, [] => true
  | lo, p :: ps => decide (lo ≤ p) && k.isPrefixOf (s.drop p) && disjointOccs s k (p + k.length) ps

/-- The occurrences a left-to-right scan finds: the first occurrence, then the
first one that starts after its end, and so on. -/
def scanOccs (k : GoString) : Nat → GoString → List Nat
  | 0, _ => []
  | fuel + 1, s =>
    match strings_Index s k with
    | none => []
    | some i => i :: (scanOccs k fuel (s.drop (i + k.length))).map (· + (i + k.length))

/-! ## Example inputs -/

/-- A case table that maps nothing. The examples are ASCII text, for which
`unicode_ToLower` never consults the table. -/
def emptyCaseTable : Char → Char := fun r => r

/-- The keyword list of the specification's scenario. -/
def exampleKeywords : List GoString := ["cat".toList, "dog".toList]

/-- The input lines of the specification's scenario. -/
def exampleLines : List GoString :=
  ["the cat sat".toList, "dog eats cat food".toList, "no animals here".toList]

/-- A file system holding the scenario: `input.txt`, `keywords.txt`, and
`twice.txt`, a keyword file that lists `cat` twice. -/
def exampleFiles : FileSystem := fun path =>
  if path = "input.txt".toList then some exampleLines
  else if path = "keywords.txt".toList then some exampleKeywords
  else if path = "twice.txt".toList then some ["cat".toList, "cat".toList]
  else none

/-- A schedule for three workers in which the lines are merged out of file
order: worker `1` receives the first line, worker `2` receives and merges the
second, worker `0` receives and merges the third, and only then worker `1`
merges the first. -/
def exampleSchedule : List Action :=
  [Action.read, Action.work 1, Action.read, Action.work 2, Action.work 2, Action.read,
   Action.work 0, Action.work 0, Action.work 1, Action.read,
   Action.work 0, Action.work 1, Action.work 2]

/-! ## Facts about `strings.Index` and `strings.Count` -/

theorem isPrefixOf_nil_left (s : GoString) : ([] : GoString).isPrefixOf s = true := by
  cases s <;> rfl

theorem strings_Index_nil_of_ne {k : GoString} (hk : k ≠ []) : strings_Index [] k = none := by
  cases k with
  | nil => exact absurd rfl hk
  | cons c t => rfl

theorem strings_Index_some {k : GoString} :
    ∀ (s : GoString) (i : Nat), strings_Index s k = some i → k.isPrefixOf (s.drop i) = true := by
  intro s
  induction s with
  | nil =>
    intro i h
    unfold strings_Index at h
    by_cases hp : k.isPrefixOf [] = true
    · simp [hp] at h; subst h; simpa using hp
    · simp [hp] at h
  | cons c t ih =>
    intro i h
    unfold strings_Index at h
    by_cases hp : k.isPrefixOf (c :: t) = true
    · simp [hp] at h; subst h; simpa using hp
    · simp [hp] at h
      obtain ⟨j, hj, rfl⟩ := h
      simpa using ih j hj

theorem strings_Index_first {k : GoString} :
    ∀ (s : GoString) (p : Nat), k.isPrefixOf (s.drop p) = true →
      ∃ i, i ≤ p ∧ strings_Index s k = some i := by
  intro s
  induction s with
  | nil =>
    intro p h
    refine ⟨0, Nat.zero_le _, ?_⟩
    unfold strings_Index
    simp at h
    simp [h]
  | cons c t ih =>
    intro p h
    by_cases hp : k.isPrefixOf (c :: t) = true
    · exact ⟨0, Nat.zero_le _, by unfold strings_Index; simp [hp]⟩
    · cases p with
      | zero => exact absurd (by simpa using h) hp
      | succ q =>
        obtain ⟨j, hj, hidx⟩ := ih q (by simpa using h)
        exact ⟨j + 1, by omega, by unfold strings_Index; simp [hp, hidx]⟩

theorem countLoop_nil {k : GoString} (hk : k ≠ []) (fuel : Nat) : countLoop k fuel [] = 0 := by
  cases fuel with
  | zero => rfl
  | succ n => simp [countLoop, strings_Index_nil_of_ne hk]

/-- Any fuel of at least the length of the string gives the same count: the
loop of `strings.Count` ends by itself. -/
theorem countLoop_fuel {k : GoString} (hk : k ≠ []) :
    ∀ (f1 f2 : Nat) (s : GoString), s.length ≤ f1 → s.length ≤ f2 →
      countLoop k f1 s = countLoop k f2 s := by
  have hlen : 0 < k.length := List.length_pos.2 hk
  intro f1
  induction f1 with
  | zero =>
    intro f2 s h1 _
    have : s = [] := List.length_eq_zero.1 (Nat.le_zero.1 h1)
    subst this
    rw [countLoop_nil hk, countLoop_nil hk]
  | succ n ih =>
    intro f2 s h1 h2
    cases f2 with
    | zero =>
      have : s = [] := List.length_eq_zero.1 (Nat.le_zero.1 h2)
      subst this
      rw [countLoop_nil hk, countLoop_nil hk]
    | succ m =>
      simp only [countLoop]
      cases hidx : strings_Index s k with
      | none => rfl
      | some i =>
        simp only
        rw [ih m (s.drop (i + k.length)) (by simp; omega) (by simp; omega)]

theorem countLoop_eq_scanOccs (k : GoString) :
    ∀ (fuel : Nat) (s : GoString), countLoop k fuel s = (scanOccs k fuel s).length := by
  intro fuel
  induction fuel with
  | zero => intro s; rfl
  | succ n ih =>
    intro s
    simp only [countLoop, scanOccs]
    cases strings_Index s k with
    | none => rfl
    | some i => simp [ih, Nat.add_comm]

theorem disjointOccs_mono (s k : GoString) (ps : List Nat) (lo lo2 : Nat) (h : lo2 ≤ lo)
    (hd : disjointOccs s k lo ps = true) : disjointOccs s k lo2 ps = true := by
  cases ps with
  | nil => rfl
  | cons p ps =>
    simp only [disjointOccs, Bool.and_eq_true, decide_eq_true_eq] at hd ⊢
    exact ⟨⟨by omega, hd.1.2⟩, hd.2⟩

theorem disjointOccs_shift_up (s k : GoString) (d : Nat) :
    ∀ (ps : List Nat) (lo : Nat), disjointOccs (s.drop d) k lo ps = true →
      disjointOccs s k (lo + d) (ps.map (· + d)) = true := by
  intro ps
  induction ps with
  | nil => intro lo _; rfl
  | cons p ps ih =>
    intro lo hd
    simp only [disjointOccs, Bool.and_eq_true, decide_eq_true_eq, List.map_cons] at hd ⊢
    refine ⟨⟨by omega, ?_⟩, ?_⟩
    · have := hd.1.2
      rw [List.drop_drop] at this
      rw [Nat.add_comm p d]
      exact this
    · have := ih (p + k.length) hd.2
      rw [show p + d + k.length = p + k.length + d by omega]
      exact this

theorem disjointOccs_shift_down (s k : GoString) (d : Nat) :
    ∀ (ps : List Nat) (lo : Nat), d ≤ lo → disjointOccs s k lo ps = true →
      disjointOccs (s.drop d) k (lo - d) (ps.map (· - d)) = true := by
  intro ps
  induction ps with
  | nil => intro lo _ _; rfl
  | cons p ps ih =>
    intro lo hlo hd
    simp only [disjointOccs, Bool.and_eq_true, decide_eq_true_eq, List.map_cons] at hd ⊢
    refine ⟨⟨by omega, ?_⟩, ?_⟩
    · rw [List.drop_drop, show d + (p - d) = p by omega]
      exact hd.1.2
    · have := ih (p + k.length) (by omega) hd.2
      rw [show p - d + k.length = p + k.length - d by omega]
      exact this

theorem scanOccs_disjoint (k : GoString) :
    ∀ (fuel : Nat) (s : GoString), disjointOccs s k 0 (scanOccs k fuel s) = true := by
  intro fuel
  induction fuel with
  | zero => intro s; rfl
  | succ n ih =>
    intro s
    simp only [scanOccs]
    cases hidx : strings_Index s k with
    | none => rfl
    | some i =>
      simp only [disjointOccs, Bool.and_eq_true, decide_eq_true_eq]
      refine ⟨⟨Nat.zero_le _, strings_Index_some s i hidx⟩, ?_⟩
      have := disjointOccs_shift_up s k (i + k.length) _ 0 (ih (s.drop (i + k.length)))
      simpa using this

theorem disjointOccs_length_le {k : GoString} (hk : k ≠ []) :
    ∀ (fuel : Nat) (s : GoString) (lo : Nat) (ps : List Nat), s.length ≤ fuel →
      disjointOccs s k lo ps = true → ps.length ≤ countLoop k fuel s := by
  have hlen : 0 < k.length := List.length_pos.2 hk
  intro fuel
  induction fuel with
  | zero =>
    intro s lo ps hs hd
    have : s = [] := List.length_eq_zero.1 (Nat.le_zero.1 hs)
    subst this
    cases ps with
    | nil => simp
    | cons p ps =>
      simp only [disjointOccs, Bool.and_eq_true, decide_eq_true_eq] at hd
      have h2 := hd.1.2
      simp at h2
      exact absurd h2 hk
  | succ n ih =>
    intro s lo ps hs hd
    cases ps with
    | nil => simp
    | cons p ps =>
      simp only [disjointOccs, Bool.and_eq_true, decide_eq_true_eq] at hd
      obtain ⟨i, hip, hidx⟩ := strings_Index_first s p hd.1.2
      simp only [countLoop, hidx, List.length_cons]
      have h3 := disjointOccs_shift_down s k (i + k.length) ps (p + k.length) (by omega) hd.2
      have h4 := ih (s.drop (i + k.length)) _ _ (by simp; omega) h3
      simp at h4
      omega

/-! ## Facts about `GoMap` -/

theorem lookupEntry_filter_ne (k k2 : GoString) (h : k2 ≠ k) :
    ∀ (l : List (GoString × Int)),
      lookupEntry k2 (l.filter (fun e => !decide (e.1 = k))) = lookupEntry k2 l := by
  intro l
  induction l with
  | nil => rfl
  | cons e t ih =>
    obtain ⟨a, v⟩ := e
    by_cases ha : a = k
    · subst ha
      have : ¬ a = k2 := fun h2 => h h2.symm
      simp [List.filter_cons, lookupEntry, this, ih]
    · by_cases hb : a = k2
      · subst hb
        simp [List.filter_cons, lookupEntry, h]
      · simp [List.filter_cons, lookupEntry, ha, hb, ih]

theorem GoMap.get_empty (k : GoString) : GoMap.empty.get k = 0 := rfl

theorem GoMap.get_set (m : GoMap) (k k2 : GoString) (v : Int) :
    (m.set k v).get k2 = if k2 = k then v else m.get k2 := by
  by_cases h : k2 = k
  · subst h
    simp [GoMap.get, GoMap.set, lookupEntry]
  · have h2 : ¬ k = k2 := fun h3 => h h3.symm
    simp [GoMap.get, GoMap.set, lookupEntry, h, h2, lookupEntry_filter_ne k k2 h]

theorem GoMap.mem_keys_set (m : GoMap) (k k2 : GoString) (v : Int) :
    k2 ∈ (m.set k v).keys ↔ k2 = k ∨ k2 ∈ m.keys := by
  simp only [GoMap.keys, GoMap.set, List.map_cons, List.mem_cons, List.mem_map, List.mem_filter]
  constructor
  · rintro (h | ⟨e, ⟨he, _⟩, rfl⟩)
    · exact Or.inl h
    · exact Or.inr ⟨e, he, rfl⟩
  · rintro (h | ⟨e, he, rfl⟩)
    · exact Or.inl h
    · by_cases hk : e.1 = k
      · exact Or.inl hk
      · exact Or.inr ⟨e, ⟨he, by simpa using hk⟩, rfl⟩

theorem lookupEntry_eq_none_of_not_mem (k : GoString) :
    ∀ (l : List (GoString × Int)), k ∉ l.map Prod.fst → lookupEntry k l = none := by
  intro l
  induction l with
  | nil => intro _; rfl
  | cons e t ih =>
    obtain ⟨a, v⟩ := e
    intro h
    simp only [List.map_cons, List.mem_cons, not_or] at h
    have : ¬ a = k := fun h2 => h.1 h2.symm
    simp [lookupEntry, this, ih h.2]

theorem GoMap.get_of_not_mem_keys (m : GoMap) (k : GoString) (h : k ∉ m.keys) : m.get k = 0 := by
  simp [GoMap.get, lookupEntry_eq_none_of_not_mem k m.entries h]

theorem sum_filter_ne (k : GoString) :
    ∀ (l : List (GoString × Int)), (l.map Prod.fst).Nodup →
      ((l.filter (fun e => !decide (e.1 = k))).map Prod.snd).sum
        = (l.map Prod.snd).sum - (lookupEntry k l).getD 0 := by
  intro l
  induction l with
  | nil => intro _; rfl
  | cons e t ih =>
    obtain ⟨a, v⟩ := e
    intro hnd
    rw [List.map_cons, List.nodup_cons] at hnd
    by_cases ha : a = k
    · subst ha
      have hnone := lookupEntry_eq_none_of_not_mem a t hnd.1
      have := ih hnd.2
      rw [hnone] at this
      simp [List.filter_cons, lookupEntry, this]
    · have := ih hnd.2
      simp only [List.filter_cons, ha, decide_False, Bool.not_false, if_true, List.map_cons,
        List.sum_cons, lookupEntry, if_false, this]
      omega

theorem GoMap.sumValues_set (m : GoMap) (k : GoString) (v : Int) :
    (m.set k v).sumValues = m.sumValues - m.get k + v := by
  simp only [GoMap.sumValues, GoMap.set, GoMap.get, List.map_cons, List.sum_cons,
    sum_filter_ne k m.entries m.nodupKeys]
  omega

theorem map_get_entries :
    ∀ (l : List (GoString × Int)), (l.map Prod.fst).Nodup →
      (l.map (fun e => (lookupEntry e.1 l).getD 0)) = l.map Prod.snd := by
  intro l
  induction l with
  | nil => intro _; rfl
  | cons e t ih =>
    obtain ⟨a, v⟩ := e
    intro hnd
    rw [List.map_cons, List.nodup_cons] at hnd
    simp only [List.map_cons, lookupEntry, if_true, Option.getD_some, List.cons.injEq, true_and]
    rw [← ih hnd.2]
    apply List.map_congr_left
    intro e he
    have : ¬ a = e.1 := by
      intro h2
      apply hnd.1
      show a ∈ List.map Prod.fst t
      rw [h2]
      exact List.mem_map_of_mem Prod.fst he
    simp [this]

theorem GoMap.sum_get_keys (m : GoMap) : (m.keys.map m.get).sum = m.sumValues := by
  have := map_get_entries m.entries m.nodupKeys
  simp only [GoMap.keys, GoMap.sumValues, List.map_map]
  rw [← this]
  rfl

/-- For a list of distinct keywords that covers the keys of the map, the
counts read for the keywords add up to the sum of the stored values. -/
theorem GoMap.sum_get_of_keys_subset (m : GoMap) (ks : List GoString) (hnd : ks.Nodup)
    (hsub : ∀ k ∈ m.keys, k ∈ ks) : (ks.map m.get).sum = m.sumValues := by
  rw [← GoMap.sum_get_keys, ← List.sum_toFinset _ hnd]
  have hk : m.keys.Nodup := m.nodupKeys
  rw [← List.sum_toFinset _ hk]
  symm
  apply Finset.sum_subset
  · intro k hk
    simp only [List.mem_toFinset] at hk ⊢
    exact hsub k hk
  · intro k _ hk
    simp only [List.mem_toFinset] at hk
    exact m.get_of_not_mem_keys k hk

/-! ## Facts about `UpdateValue` -/

theorem foldl_mergeWord_get (curr : GoMap) (k : GoString) :
    ∀ (ks : List GoString) (kw : keyWords), ks.Nodup →
      (ks.foldl (mergeWord curr) kw).wordCount.get k
        = kw.wordCount.get k + (if k ∈ ks then curr.get k else 0) := by
  intro ks
  induction ks with
  | nil => intro kw _; simp
  | cons w t ih =>
    intro kw hnd
    rw [List.nodup_cons] at hnd
    rw [List.foldl_cons, ih _ hnd.2]
    by_cases h : k = w
    · subst h
      simp [mergeWord, GoMap.get_set, hnd.1]
    · by_cases h2 : k ∈ t
      · simp [mergeWord, GoMap.get_set, h, h2]
      · simp [mergeWord, GoMap.get_set, h, h2]

theorem foldl_mergeWord_total (curr : GoMap) :
    ∀ (ks : List GoString) (kw : keyWords),
      (ks.foldl (mergeWord curr) kw).totalCount = kw.totalCount + (ks.map curr.get).sum := by
  intro ks
  induction ks with
  | nil => intro kw; simp
  | cons w t ih =>
    intro kw
    rw [List.foldl_cons, ih]
    simp [mergeWord]
    ring

theorem foldl_mergeWord_sumValues (curr : GoMap) :
    ∀ (ks : List GoString) (kw : keyWords),
      (ks.foldl (mergeWord curr) kw).wordCount.sumValues
        = kw.wordCount.sumValues + (ks.map curr.get).sum := by
  intro ks
  induction ks with
  | nil => intro kw; simp
  | cons w t ih =>
    intro kw
    rw [List.foldl_cons, ih]
    simp [mergeWord, GoMap.sumValues_set]
    ring

theorem foldl_mergeWord_keys (curr : GoMap) (k : GoString) :
    ∀ (ks : List GoString) (kw : keyWords),
      k ∈ (ks.foldl (mergeWord curr) kw).wordCount.keys ↔ k ∈ kw.wordCount.keys ∨ k ∈ ks := by
  intro ks
  induction ks with
  | nil => intro kw; simp
  | cons w t ih =>
    intro kw
    rw [List.foldl_cons, ih]
    simp only [mergeWord, GoMap.mem_keys_set, List.mem_cons]
    tauto

theorem ite_mem_keys_get (curr : GoMap) (k : GoString) :
    (if k ∈ curr.keys then curr.get k else 0) = curr.get k := by
  by_cases h : k ∈ curr.keys
  · simp [h]
  · simp [h, curr.get_of_not_mem_keys k h]

theorem UpdateValue_get (kw : keyWords) (curr : GoMap) (k : GoString) :
    (kw.UpdateValue curr).wordCount.get k = kw.wordCount.get k + curr.get k := by
  have hnd : curr.keys.Nodup := curr.nodupKeys
  rw [keyWords.UpdateValue, foldl_mergeWord_get curr k _ _ hnd, ite_mem_keys_get]

theorem UpdateValue_total (kw : keyWords) (curr : GoMap) :
    (kw.UpdateValue curr).totalCount = kw.totalCount + curr.sumValues := by
  rw [keyWords.UpdateValue, foldl_mergeWord_total, GoMap.sum_get_keys]

theorem UpdateValue_sumValues (kw : keyWords) (curr : GoMap) :
    (kw.UpdateValue curr).wordCount.sumValues = kw.wordCount.sumValues + curr.sumValues := by
  rw [keyWords.UpdateValue, foldl_mergeWord_sumValues, GoMap.sum_get_keys]

theorem UpdateValue_keys (kw : keyWords) (curr : GoMap) (k : GoString) :
    k ∈ (kw.UpdateValue curr).wordCount.keys ↔ k ∈ kw.wordCount.keys ∨ k ∈ curr.keys := by
  rw [keyWords.UpdateValue, foldl_mergeWord_keys]

theorem UpdateValue_Inv (kw : keyWords) (curr : GoMap) (h : kw.Inv) : (kw.UpdateValue curr).Inv := by
  unfold keyWords.Inv at h ⊢
  rw [UpdateValue_total, UpdateValue_sumValues, h]

/-- Whatever order Go's `range` visits the words of the partial tally in, the
loop of `UpdateValue` leaves the same counts and the same total. -/
theorem UpdateValue_any_order (kw : keyWords) (curr : GoMap) (ks : List GoString)
    (h : ks.Perm curr.keys) : (ks.foldl (mergeWord curr) kw).Same (kw.UpdateValue curr) := by
  constructor
  · intro k
    have hnd0 : curr.keys.Nodup := curr.nodupKeys
    have hnd : ks.Nodup := h.nodup_iff.2 hnd0
    rw [foldl_mergeWord_get curr k ks kw hnd, UpdateValue_get]
    simp only [h.mem_iff, ite_mem_keys_get]
  · rw [foldl_mergeWord_total, UpdateValue_total, (h.map curr.get).sum_eq, GoMap.sum_get_keys]

theorem foldl_UpdateValue_get (k : GoString) :
    ∀ (ps : List GoMap) (kw : keyWords),
      (ps.foldl keyWords.UpdateValue kw).wordCount.get k
        = kw.wordCount.get k + (ps.map (fun p => p.get k)).sum := by
  intro ps
  induction ps with
  | nil => intro kw; simp
  | cons p t ih =>
    intro kw
    rw [List.foldl_cons, ih, UpdateValue_get]
    simp
    ring

theorem foldl_UpdateValue_total :
    ∀ (ps : List GoMap) (kw : keyWords),
      (ps.foldl keyWords.UpdateValue kw).totalCount
        = kw.totalCount + (ps.map GoMap.sumValues).sum := by
  intro ps
  induction ps with
  | nil => intro kw; simp
  | cons p t ih =>
    intro kw
    rw [List.foldl_cons, ih, UpdateValue_total]
    simp
    ring

theorem foldl_UpdateValue_Inv :
    ∀ (ps : List GoMap) (kw : keyWords), kw.Inv → (ps.foldl keyWords.UpdateValue kw).Inv := by
  intro ps
  induction ps with
  | nil => intro kw h; exact h
  | cons p t ih => intro kw h; exact ih _ (UpdateValue_Inv kw p h)

/-! ## Facts about the partial tally of a line -/

theorem foldl_set_get (f : GoString → Int) (k : GoString) :
    ∀ (ws : List GoString) (m : GoMap),
      (ws.foldl (fun m word => m.set word (f word)) m).get k
        = if k ∈ ws then f k else m.get k := by
  intro ws
  induction ws with
  | nil => intro m; simp
  | cons w t ih =>
    intro m
    rw [List.foldl_cons, ih]
    by_cases h : k ∈ t
    · simp [h]
    · by_cases h2 : k = w
      · subst h2
        simp [h, GoMap.get_set]
      · simp [h, h2, GoMap.get_set]

theorem foldl_set_keys (f : GoString → Int) (k : GoString) :
    ∀ (ws : List GoString) (m : GoMap),
      k ∈ (ws.foldl (fun m word => m.set word (f word)) m).keys ↔ k ∈ m.keys ∨ k ∈ ws := by
  intro ws
  induction ws with
  | nil => intro m; simp
  | cons w t ih =>
    intro m
    rw [List.foldl_cons, ih]
    simp only [GoMap.mem_keys_set, List.mem_cons]
    tauto

theorem currKeywordsCount_get (caseTable : Char → Char) (keywordsList : List GoString)
    (readLine k : GoString) :
    (currKeywordsCount caseTable keywordsList readLine).get k
      = if k ∈ keywordsList then lineCount caseTable readLine k else 0 := by
  rw [currKeywordsCount, foldl_set_get, GoMap.get_empty]

theorem currKeywordsCount_keys (caseTable : Char → Char) (keywordsList : List GoString)
    (readLine k : GoString) :
    k ∈ (currKeywordsCount caseTable keywordsList readLine).keys ↔ k ∈ keywordsList := by
  rw [currKeywordsCount, foldl_set_keys]
  simp [GoMap.keys, GoMap.empty]

theorem currKeywordsCount_sumValues (caseTable : Char → Char) (keywordsList : List GoString)
    (readLine : GoString) :
    (currKeywordsCount caseTable keywordsList readLine).sumValues
      = (keywordsList.dedup.map (lineCount caseTable readLine)).sum := by
  rw [← GoMap.sum_get_of_keys_subset _ keywordsList.dedup (List.nodup_dedup _)
    (fun k hk => List.mem_dedup.2 ((currKeywordsCount_keys _ _ _ k).1 hk))]
  congr 1
  apply List.map_congr_left
  intro k hk
  rw [currKeywordsCount_get, if_pos (List.mem_dedup.1 hk)]

/-! ## Facts about the pipeline -/

theorem sum_map_set (g : Worker → Int) (x w : Worker) :
    ∀ (l : List Worker) (i : Nat), l[i]? = some w →
      ((l.set i x).map g).sum = (l.map g).sum - g w + g x := by
  intro l
  induction l with
  | nil => intro i h; simp at h
  | cons a t ih =>
    intro i h
    cases i with
    | zero =>
      simp at h
      subst h
      simp
      ring
    | succ j =>
      simp only [List.getElem?_cons_succ] at h
      simp only [List.set_cons_succ, List.map_cons, List.sum_cons, ih j h]
      ring

theorem read_workers (st : Pipeline) : (read st).workers = st.workers := by
  unfold read
  split
  · rfl
  · split
    · rfl
    · split
      · rfl
      · split <;> rfl

theorem read_keywords (st : Pipeline) : (read st).keywords = st.keywords := by
  unfold read
  split
  · rfl
  · split
    · rfl
    · split
      · rfl
      · split <;> rfl

theorem read_ctxDone (st : Pipeline) : (read st).ctxDone = st.ctxDone := by
  unfold read
  split
  · rfl
  · split
    · rfl
    · split
      · rfl
      · split <;> rfl

theorem process_ctxDone (caseTable : Char → Char) (kws : List GoString) (i : Nat)
    (st : Pipeline) : (process caseTable kws i st).ctxDone = st.ctxDone := by
  unfold process
  split
  · rfl
  · rfl
  · rfl
  · split
    · rfl
    · split <;> rfl

theorem process_workers_length (caseTable : Char → Char) (kws : List GoString) (i : Nat)
    (st : Pipeline) : (process caseTable kws i st).workers.length = st.workers.length := by
  unfold process
  split
  · rfl
  · rfl
  · simp
  · split
    · simp
    · split
      · simp
      · rfl

theorem step_workers_length (caseTable : Char → Char) (kws : List GoString) (st : Pipeline)
    (a : Action) : (step caseTable kws st a).workers.length = st.workers.length := by
  cases a with
  | cancel => rfl
  | read => simp [step, read_workers]
  | work i => simp [step, process_workers_length]

theorem exec_workers_length (caseTable : Char → Char) (kws : List GoString) :
    ∀ (sched : List Action) (st : Pipeline),
      (exec caseTable kws sched st).workers.length = st.workers.length := by
  intro sched
  induction sched with
  | nil => intro st; rfl
  | cons a t ih =>
    intro st
    rw [exec, List.foldl_cons, ← exec, ih, step_workers_length]

/-- A property of the tally that every merge of a line's partial tally keeps
holds throughout the execution. -/
theorem exec_keywords (caseTable : Char → Char) (kws : List GoString) (P : keyWords → Prop)
    (hP : ∀ kw readLine, P kw → P (kw.UpdateValue (currKeywordsCount caseTable kws readLine))) :
    ∀ (sched : List Action) (st : Pipeline), P st.keywords →
      P (exec caseTable kws sched st).keywords := by
  intro sched
  induction sched with
  | nil => intro st h; exact h
  | cons a t ih =>
    intro st h
    rw [exec, List.foldl_cons, ← exec]
    apply ih
    cases a with
    | cancel => exact h
    | read => simpa [step, read_keywords] using h
    | work i =>
      simp only [step, process]
      split
      · exact h
      · exact h
      · exact hP _ _ h
      · split
        · exact h
        · split <;> exact h

theorem exec_ctxDone (caseTable : Char → Char) (kws : List GoString) :
    ∀ (sched : List Action) (st : Pipeline), noCancel sched = true →
      (exec caseTable kws sched st).ctxDone = st.ctxDone := by
  intro sched
  induction sched with
  | nil => intro st _; rfl
  | cons a t ih =>
    intro st hn
    simp only [noCancel, List.all_cons, Bool.and_eq_true, decide_eq_true_eq] at hn
    rw [exec, List.foldl_cons, ← exec, ih _ (by simpa [noCancel] using hn.2)]
    cases a with
    | cancel => exact absurd rfl hn.1
    | read => simp [step, read_ctxDone]
    | work i => simp [step, process_ctxDone]

theorem noCancel_filter (sched : List Action) :
    noCancel (sched.filter (fun a => a ≠ Action.cancel)) = true := by
  simp [noCancel, List.all_eq_true, List.mem_filter]

theorem read_Consistent (st : Pipeline) (h : st.Consistent) : (read st).Consistent := by
  obtain ⟨h1, h2, h3⟩ := h
  unfold read
  split
  · exact ⟨h1, h2, h3⟩
  · rename_i hc
    split
    · exact ⟨h1, h2, h3⟩
    · rename_i hs
      split
      · rename_i hsc
        exact ⟨fun _ => hs, fun _ => rfl, fun _ _ => hsc⟩
      · split
        · rename_i hd
          exact ⟨fun _ => hs, fun _ => rfl, fun hf => by simp [hd] at hf⟩
        · exact ⟨fun hf => absurd hf hc, fun hf => absurd (h2 hf) hc,
            fun _ hf => absurd hf hc⟩

theorem process_Consistent (caseTable : Char → Char) (kws : List GoString) (i : Nat)
    (st : Pipeline) (h : st.Consistent) : (process caseTable kws i st).Consistent := by
  obtain ⟨h1, h2, h3⟩ := h
  unfold process
  split
  · exact ⟨h1, h2, h3⟩
  · exact ⟨h1, h2, h3⟩
  · refine ⟨h1, fun hf => ?_, h3⟩
    rcases List.mem_or_eq_of_mem_set hf with hm | he
    · exact h2 hm
    · cases he
  · split
    · rename_i hs
      refine ⟨fun _ => rfl, fun hf => ?_, h3⟩
      rcases List.mem_or_eq_of_mem_set hf with hm | he
      · exact h2 hm
      · cases he
    · split
      · rename_i hc
        exact ⟨h1, fun _ => hc, h3⟩
      · exact ⟨h1, h2, h3⟩

theorem step_Consistent (caseTable : Char → Char) (kws : List GoString) (st : Pipeline)
    (a : Action) (ha : a ≠ Action.cancel) (h : st.Consistent) :
    (step caseTable kws st a).Consistent := by
  cases a with
  | cancel => exact absurd rfl ha
  | read => exact read_Consistent st h
  | work i => exact process_Consistent caseTable kws i st h

/-- Without cancellation a step moves lines between the scanner, the channel,
the workers and the tally, and loses none: what the tally holds plus what is
still owed stays the same. -/
theorem step_conserves (caseTable : Char → Char) (kws : List GoString) (φ : keyWords → Int)
    (f : GoString → Int)
    (hφ : ∀ kw readLine,
      φ (kw.UpdateValue (currKeywordsCount caseTable kws readLine)) = φ kw + f readLine)
    (st : Pipeline) (a : Action) (ha : a ≠ Action.cancel) (hd : st.ctxDone = false) :
    φ (step caseTable kws st a).keywords + (step caseTable kws st a).owed f
      = φ st.keywords + st.owed f := by
  cases a with
  | cancel => exact absurd rfl ha
  | read =>
    simp only [step, read]
    split
    · rfl
    · split
      · rfl
      · rename_i hs
        split
        · rfl
        · rename_i l rest hsc
          simp only [hd, Bool.false_eq_true, if_false, Pipeline.owed, hs, hsc, List.map_cons,
            List.sum_cons]
          ring
  | work i =>
    simp only [step, process]
    split
    · rfl
    · rfl
    · rename_i l hw
      simp only [Pipeline.owed, hφ, sum_map_set (Worker.owed f) Worker.waiting _ _ i hw,
        Worker.owed]
      ring
    · rename_i hw
      split
      · rename_i l hs
        simp only [Pipeline.owed, hs, sum_map_set (Worker.owed f) (Worker.holding l) _ _ i hw,
          Worker.owed]
        ring
      · split
        · simp only [Pipeline.owed, sum_map_set (Worker.owed f) Worker.exited _ _ i hw,
            Worker.owed]
          ring
        · rfl

theorem exec_conserves (caseTable : Char → Char) (kws : List GoString) (φ : keyWords → Int)
    (f : GoString → Int)
    (hφ : ∀ kw readLine,
      φ (kw.UpdateValue (currKeywordsCount caseTable kws readLine)) = φ kw + f readLine) :
    ∀ (sched : List Action) (st : Pipeline), noCancel sched = true → st.ctxDone = false →
      st.Consistent →
      (exec caseTable kws sched st).ctxDone = false ∧
      (exec caseTable kws sched st).Consistent ∧
      φ (exec caseTable kws sched st).keywords + (exec caseTable kws sched st).owed f
        = φ st.keywords + st.owed f := by
  intro sched
  induction sched with
  | nil => intro st _ hd hc; exact ⟨hd, hc, rfl⟩
  | cons a t ih =>
    intro st hn hd hc
    simp only [noCancel, List.all_cons, Bool.and_eq_true, decide_eq_true_eq] at hn
    have hd2 : (step caseTable kws st a).ctxDone = false := by
      cases a with
      | cancel => exact absurd rfl hn.1
      | read => simpa [step, read_ctxDone] using hd
      | work i => simpa [step, process_ctxDone] using hd
    have := ih (step caseTable kws st a) (by simpa [noCancel] using hn.2) hd2
      (step_Consistent caseTable kws st a hn.1 hc)
    rw [exec, List.foldl_cons, ← exec]
    refine ⟨this.1, this.2.1, ?_⟩
    rw [this.2.2, step_conserves caseTable kws φ f hφ st a hn.1 hd]

theorem owed_of_allExited (f : GoString → Int) (st : Pipeline) (hc : st.Consistent)
    (hd : st.ctxDone = false) (hne : st.workers ≠ []) (hx : st.allExited = true) :
    st.owed f = 0 := by
  simp only [Pipeline.allExited, List.all_eq_true, decide_eq_true_eq] at hx
  obtain ⟨w, hw⟩ := List.exists_mem_of_ne_nil _ hne
  have hcl : st.closed = true := hc.2.1 (hx w hw ▸ hw)
  have hs := hc.1 hcl
  have hsc := hc.2.2 hd hcl
  have hz : (st.workers.map (Worker.owed f)).sum = 0 := by
    apply List.sum_eq_zero
    intro v hv
    obtain ⟨u, hu, rfl⟩ := List.mem_map.1 hv
    rw [hx u hu]
    rfl
  simp [Pipeline.owed, hs, hsc, hz]

theorem start_Consistent (lines : List GoString) (n : Nat) :
    (Pipeline.start false lines n).Consistent := by
  refine ⟨fun h => rfl, fun h => ?_, fun _ h => ?_⟩
  · simp [Pipeline.start, List.mem_replicate] at h
  · simp [Pipeline.start] at h

theorem start_owed (f : GoString → Int) (lines : List GoString) (n : Nat) :
    (Pipeline.start false lines n).owed f = (lines.map f).sum := by
  have hz : ((List.replicate n Worker.waiting).map (Worker.owed f)).sum = 0 := by
    apply List.sum_eq_zero
    intro v hv
    obtain ⟨u, hu, rfl⟩ := List.mem_map.1 hv
    rw [(List.mem_replicate.1 hu).2]
    rfl
  simp only [Pipeline.owed, Pipeline.start, hz]
  simp

/-- Once every worker has left its loop in an execution without cancellation,
the tally holds the contribution of every input line. -/
theorem exec_final (caseTable : Char → Char) (kws : List GoString) (φ : keyWords → Int)
    (f : GoString → Int)
    (hφ : ∀ kw readLine,
      φ (kw.UpdateValue (currKeywordsCount caseTable kws readLine)) = φ kw + f readLine)
    (lines : List GoString) (n : Nat) (hn : 1 ≤ n) (sched : List Action)
    (hs : noCancel sched = true)
    (hx : (exec caseTable kws sched (Pipeline.start false lines n)).allExited = true) :
    φ (exec caseTable kws sched (Pipeline.start false lines n)).keywords
      = φ keyWords.init + (lines.map f).sum := by
  have h := exec_conserves caseTable kws φ f hφ sched (Pipeline.start false lines n) hs rfl
    (start_Consistent lines n)
  have hne : (exec caseTable kws sched (Pipeline.start false lines n)).workers ≠ [] := by
    intro h0
    have := exec_workers_length caseTable kws sched (Pipeline.start false lines n)
    rw [h0] at this
    simp [Pipeline.start] at this
    omega
  rw [owed_of_allExited f _ h.2.1 h.1 hne hx, start_owed] at h
  simpa [Pipeline.start] using h.2.2

/-! ## The pipeline can always run to its end -/

theorem noCancel_serialSchedule (numberOfProcesses : Nat) :
    ∀ n, noCancel (serialSchedule n numberOfProcesses) = true := by
  intro n
  induction n with
  | zero => simp [serialSchedule, noCancel]
  | succ m ih =>
    simp only [noCancel, serialSchedule, List.all_cons, Bool.and_eq_true, decide_eq_true_eq] at ih ⊢
    exact ⟨by simp, by simp, by simp, ih⟩

theorem exec_exit_phase (caseTable : Char → Char) (kws : List GoString) :
    ∀ (m j : Nat) (st : Pipeline), st.closed = true → st.sending = none →
      (∀ i, i < j → st.workers[i]? = some Worker.exited) →
      (∀ i, j ≤ i → i < j + m → st.workers[i]? = some Worker.waiting) →
      ∀ i, i < j + m →
        (exec caseTable kws ((List.range' j m).map Action.work) st).workers[i]?
          = some Worker.exited := by
  intro m
  induction m with
  | zero => intro j st _ _ hlo _ i hi; exact hlo i (by omega)
  | succ n ih =>
    intro j st hc hs hlo hhi i hi
    have hj := hhi j (Nat.le_refl _) (by omega)
    have hlt : j < st.workers.length := by
      by_contra hge
      rw [List.getElem?_eq_none (by omega)] at hj
      cases hj
    have hstep : step caseTable kws st (Action.work j)
        = { st with workers := st.workers.set j Worker.exited } := by
      simp [step, process, hj, hs, hc]
    rw [List.range', List.map_cons, exec, List.foldl_cons, ← exec, hstep]
    have := ih (j + 1) { st with workers := st.workers.set j Worker.exited } hc hs
      (fun i2 hi2 => by
        by_cases he : i2 = j
        · subst he
          simp [List.getElem?_set_self, hlt]
        · simp only
          rw [List.getElem?_set_ne (fun h => he h.symm)]
          exact hlo i2 (by omega))
      (fun i2 h1 h2 => by
        simp only
        rw [List.getElem?_set_ne (by omega)]
        exact hhi i2 (by omega) (by omega))
      i (by omega)
    exact this

theorem allExited_of_getElem (st : Pipeline)
    (h : ∀ i, i < st.workers.length → st.workers[i]? = some Worker.exited) :
    st.allExited = true := by
  simp only [Pipeline.allExited, List.all_eq_true, decide_eq_true_eq]
  intro w hw
  obtain ⟨i, hi, rfl⟩ := List.getElem_of_mem hw
  have := h i hi
  rw [List.getElem?_eq_getElem hi] at this
  exact Option.some.inj this

/-- For every input and at least one worker, the schedule `serialSchedule` is
free of cancellation and brings every worker to the end of its loop, so that
`wg.Wait()` returns. -/
theorem exec_serialSchedule (caseTable : Char → Char) (kws : List GoString) (n : Nat) :
    ∀ (lines : List GoString) (kw : keyWords),
      (exec caseTable kws (serialSchedule lines.length (n + 1))
        { ctxDone := false, scanner := lines, sending := none, closed := false,
          workers := List.replicate (n + 1) Worker.waiting, keywords := kw }).allExited = true := by
  intro lines
  induction lines with
  | nil =>
    intro kw
    apply allExited_of_getElem
    intro i hi
    rw [exec_workers_length] at hi
    simp only [List.length_replicate] at hi
    simp only [List.length_nil, serialSchedule, exec, List.foldl_cons, step, read]
    rw [← exec, List.range_eq_range']
    apply exec_exit_phase caseTable kws (n + 1) 0 _ rfl rfl
    · intro i2 h2; omega
    · intro i2 _ h2
      simp only [Bool.false_eq_true, if_false]
      rw [List.getElem?_replicate]
      simp at h2 ⊢
      omega
    · omega
  | cons l rest ih =>
    intro kw
    have := ih (kw.UpdateValue (currKeywordsCount caseTable kws l))
    simp only [List.length_cons, serialSchedule, exec, List.foldl_cons, step, read, process,
      List.replicate_succ, List.getElem?_cons_zero, List.set_cons_zero, Bool.false_eq_true,
      if_false] at this ⊢
    exact this

/-! ## Facts about `write` and `run` -/

theorem foldl_report (g : GoString → GoString) :
    ∀ (ws : List GoString) (out : List GoString),
      ws.foldl (fun out word => out ++ [g word]) out = out ++ ws.map g := by
  intro ws
  induction ws with
  | nil => intro out; simp
  | cons w t ih => intro out; rw [List.foldl_cons, ih]; simp

theorem write_eq (keywordsList : List GoString) (keywords : keyWords) (stdout : List GoString) :
    write keywordsList keywords stdout
      = stdout ++ keywordsList.map (fun word => reportLine word (keywords.wordCount.get word))
        ++ [reportLine "всего".toList keywords.totalCount] := by
  rw [write, foldl_report (fun word => reportLine word (keywords.wordCount.get word))]

theorem write_congr (keywordsList : List GoString) (a b : keyWords) (stdout : List GoString)
    (h : a.Same b) : write keywordsList a stdout = write keywordsList b stdout := by
  rw [write_eq, write_eq, h.2]
  congr 2
  apply List.map_congr_left
  intro w _
  rw [h.1 w]

theorem exec_no_workers (caseTable : Char → Char) (kws : List GoString) :
    ∀ (sched : List Action) (st : Pipeline), st.workers = [] →
      (exec caseTable kws sched st).workers = [] ∧
      (exec caseTable kws sched st).keywords = st.keywords := by
  intro sched
  induction sched with
  | nil => intro st h; exact ⟨h, rfl⟩
  | cons a t ih =>
    intro st h
    rw [exec, List.foldl_cons, ← exec]
    cases a with
    | cancel => exact ih { st with ctxDone := true } h
    | read =>
      have := ih (read st) (by rw [read_workers]; exact h)
      rw [read_keywords] at this
      exact this
    | work i =>
      have hp : process caseTable kws i st = st := by simp [process, h]
      simp only [step, hp]
      exact ih st h

/-- The tally of any reachable state of the pipeline satisfies the tally
invariant and stores counts for words of the keyword list only. -/
theorem exec_tally (caseTable : Char → Char) (kws : List GoString) (sched : List Action)
    (ctx : Bool) (lines : List GoString) (n : Nat) :
    (exec caseTable kws sched (Pipeline.start ctx lines n)).keywords.Inv ∧
    ∀ k ∈ (exec caseTable kws sched (Pipeline.start ctx lines n)).keywords.wordCount.keys,
      k ∈ kws := by
  apply exec_keywords caseTable kws (fun kw => kw.Inv ∧ ∀ k ∈ kw.wordCount.keys, k ∈ kws)
  · intro kw l h
    refine ⟨UpdateValue_Inv kw _ h.1, fun k hk => ?_⟩
    rcases (UpdateValue_keys kw _ k).1 hk with h1 | h1
    · exact h.2 k h1
    · exact (currKeywordsCount_keys caseTable kws l k).1 h1
  · refine ⟨rfl, fun k hk => ?_⟩
    simp [Pipeline.start, keyWords.init, GoMap.empty, GoMap.keys] at hk

theorem sum_split_filter (f : GoString → Int) (a : GoString) :
    ∀ (l : List GoString), l.Nodup → a ∈ l →
      (l.map f).sum = f a + ((l.filter (fun k => !decide (k = a))).map f).sum := by
  intro l
  induction l with
  | nil => intro _ h; simp at h
  | cons b t ih =>
    intro hnd hmem
    rw [List.nodup_cons] at hnd
    by_cases hb : b = a
    · subst hb
      have : t.filter (fun k => !decide (k = b)) = t := by
        apply List.filter_eq_self.2
        intro x hx
        have : x ≠ b := fun h => hnd.1 (h ▸ hx)
        simp [this]
      simp [List.filter_cons, this]
    · have hm : a ∈ t := by
        rcases List.mem_cons.1 hmem with h | h
        · exact absurd h.symm hb
        · exact h
      simp only [List.filter_cons, hb, decide_False, Bool.not_false, if_true, List.map_cons,
        List.sum_cons, ih hnd.2 hm]
      ring

theorem zipWith_reportLine (g : GoString → Int) :
    ∀ (ws : List GoString),
      List.zipWith reportLine ws (ws.map g) = ws.map (fun word => reportLine word (g word)) := by
  intro ws
  induction ws with
  | nil => rfl
  | cons w t ih => simp [ih]

/-- Two lines with the same lower-cased text, such as the letter-case variants
of one line, get the same count for every keyword. -/
theorem lineCount_of_same_lower (caseTable : Char → Char) (line1 line2 word : GoString)
    (h : strings_ToLower caseTable line1 = strings_ToLower caseTable line2) :
    lineCount caseTable line1 word = lineCount caseTable line2 word := by
  rw [lineCount, lineCount, h]

/-! ## Executions with cancellation -/

theorem exec_Consistent (caseTable : Char → Char) (kws : List GoString) :
    ∀ (sched : List Action) (st : Pipeline), st.Consistent →
      (exec caseTable kws sched st).Consistent := by
  intro sched
  induction sched with
  | nil => intro st h; exact h
  | cons a t ih =>
    intro st h
    rw [exec, List.foldl_cons, ← exec]
    apply ih
    cases a with
    | cancel => exact ⟨h.1, h.2.1, fun hf => by simp [step] at hf⟩
    | read => exact read_Consistent st h
    | work i => exact process_Consistent caseTable kws i st h

theorem heldLines_set (x w : Worker) :
    ∀ (ws : List Worker) (i : Nat), ws[i]? = some w →
      ((heldLines (ws.set i x) : List GoString) : Multiset GoString) + (w.held : List GoString)
        = (heldLines ws : List GoString) + (x.held : List GoString) := by
  intro ws
  induction ws with
  | nil => intro i h; simp at h
  | cons a t ih =>
    intro i h
    cases i with
    | zero =>
      simp only [List.getElem?_cons_zero, Option.some.injEq] at h
      subst h
      simp only [List.set_cons_zero, heldLines, ← Multiset.coe_add]
      abel
    | succ j =>
      simp only [List.getElem?_cons_succ] at h
      simp only [List.set_cons_succ, heldLines, ← Multiset.coe_add]
      rw [add_assoc, ih j h]
      abel

theorem take_succ_of_drop (lines rest : List GoString) (l : GoString) (m : Nat)
    (h : lines.drop m = l :: rest) :
    lines.take (m + 1) = lines.take m ++ [l] ∧ lines.drop (m + 1) = rest := by
  constructor
  · have h2 : lines[m]? = some l := by
      rw [← List.head?_drop, h]
      rfl
    rw [List.take_succ, h2]
    rfl
  · rw [← List.drop_drop 1 m lines, h]
    rfl

theorem step_Tracked (caseTable : Char → Char) (kws lines : List GoString) (st : Pipeline)
    (a : Action) (h : Tracked caseTable kws lines st) :
    Tracked caseTable kws lines (step caseTable kws st a) := by
  obtain ⟨merged, m, hget, htot, hms, hsc⟩ := h
  cases a with
  | cancel => exact ⟨merged, m, hget, htot, hms, hsc⟩
  | read =>
    simp only [step, read]
    split
    · exact ⟨merged, m, hget, htot, hms, hsc⟩
    · rename_i hc
      split
      · exact ⟨merged, m, hget, htot, hms, hsc⟩
      · rename_i hs
        split
        · exact ⟨merged, m, hget, htot, hms, fun hf => by simp at hf⟩
        · rename_i l rest hscan
          have hdrop : lines.drop m = l :: rest := by
            rw [← hsc (by simpa using hc), hscan]
          obtain ⟨ht, hd⟩ := take_succ_of_drop lines rest l m hdrop
          split
          · exact ⟨merged, m, hget, htot, hms, fun hf => by simp at hf⟩
          · refine ⟨merged, m + 1, hget, htot, ?_, fun _ => hd.symm⟩
            rw [hs] at hms
            simp only [Option.toList, ht, ← Multiset.coe_add] at hms ⊢
            rw [← hms]
            have h0 : (([] : List GoString) : Multiset GoString) = 0 := rfl
            rw [h0]
            abel
  | work i =>
    simp only [step, process]
    split
    · exact ⟨merged, m, hget, htot, hms, hsc⟩
    · exact ⟨merged, m, hget, htot, hms, hsc⟩
    · rename_i l hw
      refine ⟨merged ++ [l], m, fun k => ?_, ?_, ?_, hsc⟩
      · simp only [UpdateValue_get, hget k, List.map_append, List.sum_append, List.map_cons,
          List.map_nil, List.sum_cons, List.sum_nil, add_zero]
      · simp only [UpdateValue_total, htot, List.map_append, List.sum_append, List.map_cons,
          List.map_nil, List.sum_cons, List.sum_nil, add_zero]
      · have := heldLines_set Worker.waiting _ st.workers i hw
        simp only [Worker.held] at this
        rw [← hms, ← Multiset.coe_add merged [l]]
        have h0 : (([] : List GoString) : Multiset GoString) = 0 := rfl
        rw [h0, add_zero] at this
        rw [← this]
        abel
    · rename_i hw
      split
      · rename_i l hs
        refine ⟨merged, m, hget, htot, ?_, hsc⟩
        have := heldLines_set (Worker.holding l) _ st.workers i hw
        simp only [Worker.held] at this
        have h0 : (([] : List GoString) : Multiset GoString) = 0 := rfl
        rw [h0, add_zero] at this
        rw [hs] at hms
        simp only [Option.toList] at hms ⊢
        rw [h0, add_zero, this, ← hms]
        abel
      · split
        · refine ⟨merged, m, hget, htot, ?_, hsc⟩
          have := heldLines_set Worker.exited _ st.workers i hw
          simp only [Worker.held] at this
          rw [← hms]
          have h0 : (([] : List GoString) : Multiset GoString) = 0 := rfl
          rw [h0, add_zero] at this
          simp only [this, add_zero]
        · exact ⟨merged, m, hget, htot, hms, hsc⟩

theorem exec_Tracked (caseTable : Char → Char) (kws lines : List GoString) :
    ∀ (sched : List Action) (st : Pipeline), Tracked caseTable kws lines st →
      Tracked caseTable kws lines (exec caseTable kws sched st) := by
  intro sched
  induction sched with
  | nil => intro st h; exact h
  | cons a t ih =>
    intro st h
    rw [exec, List.foldl_cons, ← exec]
    exact ih _ (step_Tracked caseTable kws lines st a h)

theorem start_Tracked (caseTable : Char → Char) (kws lines : List GoString) (ctx : Bool)
    (n : Nat) : Tracked caseTable kws lines (Pipeline.start ctx lines n) := by
  refine ⟨[], 0, fun k => rfl, rfl, ?_, fun _ => rfl⟩
  have hz : ∀ n : Nat, heldLines (List.replicate n Worker.waiting) = [] := by
    intro n
    induction n with
    | zero => rfl
    | succ j ih => simp [List.replicate_succ, heldLines, Worker.held, ih]
  simp [Pipeline.start, hz]

theorem start_Consistent_any (ctx : Bool) (lines : List GoString) (n : Nat) :
    (Pipeline.start ctx lines n).Consistent := by
  refine ⟨fun h => rfl, fun h => ?_, fun _ h => ?_⟩
  · simp [Pipeline.start, List.mem_replicate] at h
  · simp [Pipeline.start] at h

theorem heldLines_of_allExited :
    ∀ (ws : List Worker), (∀ w ∈ ws, w = Worker.exited) → heldLines ws = [] := by
  intro ws
  induction ws with
  | nil => intro _; rfl
  | cons a t ih =>
    intro h
    rw [heldLines, ih (fun w hw => h w (List.mem_cons_of_mem _ hw)),
      h a (List.mem_cons_self _ _)]
    rfl

/-- When `wg.Wait()` returns, with or without cancellation, the tally holds
the contributions of the first `m` lines of the input, for some `m`. -/
theorem exec_allExited_prefix (caseTable : Char → Char) (kws lines : List GoString)
    (sched : List Action) (ctx : Bool) (n : Nat)
    (hx : (exec caseTable kws sched (Pipeline.start ctx lines n)).allExited = true) :
    ∃ m : Nat,
      (∀ k, (exec caseTable kws sched (Pipeline.start ctx lines n)).keywords.wordCount.get k
        = ((lines.take m).map (fun line => (currKeywordsCount caseTable kws line).get k)).sum) ∧
      (exec caseTable kws sched (Pipeline.start ctx lines n)).keywords.totalCount
        = ((lines.take m).map
            (fun line => (currKeywordsCount caseTable kws line).sumValues)).sum := by
  by_cases hw : (exec caseTable kws sched (Pipeline.start ctx lines n)).workers = []
  · have hn : (Pipeline.start ctx lines n).workers = [] := by
      have := exec_workers_length caseTable kws sched (Pipeline.start ctx lines n)
      rw [hw] at this
      exact List.length_eq_zero.1 this.symm
    have := exec_no_workers caseTable kws sched (Pipeline.start ctx lines n) hn
    refine ⟨0, fun k => ?_, ?_⟩
    · rw [this.2]; rfl
    · rw [this.2]; rfl
  · obtain ⟨merged, m, hget, htot, hms, _⟩ :=
      exec_Tracked caseTable kws lines sched _ (start_Tracked caseTable kws lines ctx n)
    have hc := exec_Consistent caseTable kws sched _ (start_Consistent_any ctx lines n)
    simp only [Pipeline.allExited, List.all_eq_true, decide_eq_true_eq] at hx
    obtain ⟨w, hwm⟩ := List.exists_mem_of_ne_nil _ hw
    have hcl := hc.2.1 (hx w hwm ▸ hwm)
    rw [hc.1 hcl, heldLines_of_allExited _ hx] at hms
    have hp : merged.Perm (lines.take m) := by
      have h0 : (([] : List GoString) : Multiset GoString) = 0 := rfl
      simp only [Option.toList, h0, add_zero] at hms
      exact Multiset.coe_eq_coe.1 hms
    refine ⟨m, fun k => ?_, ?_⟩
    · rw [hget k, (hp.map _).sum_eq]
    · rw [htot, (hp.map _).sum_eq]

/-- The report `write` prints once `wg.Wait()` has returned is the report of
the first `m` lines of the input, for some `m`. -/
theorem write_of_allExited (caseTable : Char → Char) (kws lines : List GoString)
    (sched : List Action) (ctx : Bool) (n : Nat)
    (hx : (exec caseTable kws sched (Pipeline.start ctx lines n)).allExited = true) :
    ∃ m : Nat,
      write kws (exec caseTable kws sched (Pipeline.start ctx lines n)).keywords []
        = kws.map (fun word => reportLine word
            ((lines.take m).map (fun line => lineCount caseTable line word)).sum)
          ++ [reportLine "всего".toList
            ((lines.take m).map
              (fun line => (kws.dedup.map (lineCount caseTable line)).sum)).sum] := by
  obtain ⟨m, hget, htot⟩ := exec_allExited_prefix caseTable kws lines sched ctx n hx
  refine ⟨m, ?_⟩
  rw [write_eq, List.nil_append, htot]
  congr 1
  · apply List.map_congr_left
    intro word hword
    rw [hget word]
    congr 2
    apply List.map_congr_left
    intro line _
    rw [currKeywordsCount_get, if_pos hword]
  · congr 3
    apply List.map_congr_left
    intro line _
    rw [currKeywordsCount_sumValues]

/-! ## The claims of the specification -/

/-- C1, as the code behaves: the worker lower-cases the line but not the
keyword, so, whatever the case table, the keyword `Cat` is counted `0` times in
each of the lines `cat`, `CAT`, `CaT` and even `Cat`, while the keyword `cat`
is counted once in each of them. The counts differ between the letter-case
variants of the keyword, and the count of `Cat` is not non-zero. -/
theorem C1_capital_keyword_counts_zero (caseTable : Char → Char) :
    lineCount caseTable "cat".toList "Cat".toList = 0 ∧
    lineCount caseTable "CAT".toList "Cat".toList = 0 ∧
    lineCount caseTable "CaT".toList "Cat".toList = 0 ∧
    lineCount caseTable "Cat".toList "Cat".toList = 0 ∧
    lineCount caseTable "cat".toList "cat".toList = 1 ∧
    lineCount caseTable "CAT".toList "cat".toList = 1 ∧
    lineCount caseTable "CaT".toList "cat".toList = 1 := by
  have h1 : strings_ToLower caseTable "cat".toList = "cat".toList := rfl
  have h2 : strings_ToLower caseTable "CAT".toList = "cat".toList := rfl
  have h3 : strings_ToLower caseTable "CaT".toList = "cat".toList := rfl
  have h4 : strings_ToLower caseTable "Cat".toList = "cat".toList := rfl
  simp only [lineCount, h1, h2, h3, h4]
  decide

/-- C2, as the code behaves: `main` rejects the worker count `abc` with the
conversion error and exit status 1, but for the worker count `0` it runs, prints
a report in which every count is `0` and exits with status 0, under every
schedule; for `-2` the call of `wg.Add` panics after both files were opened. -/
theorem C2_zero_workers_prints_report (caseTable : Char → Char) (sched : List Action) :
    main caseTable exampleFiles sched
        ["homework2".toList, "input.txt".toList, "keywords.txt".toList, "0".toList]
      = { stdout := ["cat: 0".toList, "dog: 0".toList, "всего: 0".toList]
          stderr := []
          exitCode := some 0 } ∧
    main caseTable exampleFiles sched
        ["homework2".toList, "input.txt".toList, "keywords.txt".toList, "-2".toList]
      = { stdout := []
          stderr := ["panic: sync: negative WaitGroup counter".toList]
          exitCode := some 2 } ∧
    main caseTable exampleFiles sched
        ["homework2".toList, "input.txt".toList, "keywords.txt".toList, "abc".toList]
      = { stdout := []
          stderr := ["Произошла ошибка: error converting number of processes to int ".toList]
          exitCode := some 1 } := by
  have h := exec_no_workers caseTable exampleKeywords
    (sched.filter (fun a => a ≠ Action.cancel)) (Pipeline.start false exampleLines 0) rfl
  have hc := exec_ctxDone caseTable exampleKeywords
    (sched.filter (fun a => a ≠ Action.cancel)) (Pipeline.start false exampleLines 0)
    (noCancel_filter sched)
  have hatoi : strconv_Atoi "0".toList = some 0 := by decide
  have hatoi2 : strconv_Atoi "-2".toList = some (-2) := by decide
  have hatoi3 : strconv_Atoi "abc".toList = none := by decide
  have hk : exampleFiles "keywords.txt".toList = some exampleKeywords := by decide
  have hi : exampleFiles "input.txt".toList = some exampleLines := by decide
  have hw : write exampleKeywords keyWords.init []
      = ["cat: 0".toList, "dog: 0".toList, "всего: 0".toList] := by decide
  refine ⟨?_, ?_, ?_⟩
  · simp only [main, hatoi, run, getKeyWordsFromFile, hk, hi, Int.toNat_zero, lt_self_iff_false,
      if_false, Pipeline.allExited, h.1, h.2, hc, List.all_nil, if_true]
    exact congrArg (fun o => ProcessResult.mk o [] (some 0)) hw
  · simp only [main, hatoi2, run, getKeyWordsFromFile, hk, hi]
    rfl
  · simp only [main, hatoi3]

/-- C3: for every keyword list, input and worker count of at least 1, an
execution without cancellation can reach the point where every worker is done,
and whenever it has, the tally holds for each keyword `k` of the list the sum
over all input lines of `strings.Count(strings.ToLower(line), k)`, and as total
the sum of these counts over the distinct keywords and the lines; with no
input line every count and the total are `0`. -/
theorem C3_tally_is_sum_over_lines (caseTable : Char → Char)
    (keywordsList lines : List GoString) (numberOfProcesses : Nat)
    (hn : 1 ≤ numberOfProcesses) :
    (∃ sched, noCancel sched = true ∧
      (exec caseTable keywordsList sched
        (Pipeline.start false lines numberOfProcesses)).allExited = true) ∧
    ∀ sched, noCancel sched = true →
      (exec caseTable keywordsList sched
        (Pipeline.start false lines numberOfProcesses)).allExited = true →
      (∀ k ∈ keywordsList,
        (exec caseTable keywordsList sched
          (Pipeline.start false lines numberOfProcesses)).keywords.wordCount.get k
        = (lines.map (fun line =>
            ((strings_Count (strings_ToLower caseTable line) k : Nat) : Int))).sum) ∧
      (exec caseTable keywordsList sched
          (Pipeline.start false lines numberOfProcesses)).keywords.totalCount
        = (lines.map (fun line => (keywordsList.dedup.map (fun k =>
            ((strings_Count (strings_ToLower caseTable line) k : Nat) : Int))).sum)).sum ∧
      (lines = [] →
        (∀ k, (exec caseTable keywordsList sched
          (Pipeline.start false lines numberOfProcesses)).keywords.wordCount.get k = 0) ∧
        (exec caseTable keywordsList sched
          (Pipeline.start false lines numberOfProcesses)).keywords.totalCount = 0) := by
  have hget : ∀ (k : GoString) (sched : List Action), noCancel sched = true →
      (exec caseTable keywordsList sched
        (Pipeline.start false lines numberOfProcesses)).allExited = true →
      (exec caseTable keywordsList sched
          (Pipeline.start false lines numberOfProcesses)).keywords.wordCount.get k
        = (lines.map (fun line =>
            (currKeywordsCount caseTable keywordsList line).get k)).sum := by
    intro k sched hs hx
    have := exec_final caseTable keywordsList (fun kw => kw.wordCount.get k)
      (fun line => (currKeywordsCount caseTable keywordsList line).get k)
      (fun kw line => UpdateValue_get kw _ k) lines numberOfProcesses hn sched hs hx
    simpa [keyWords.init, GoMap.get_empty] using this
  have htot : ∀ (sched : List Action), noCancel sched = true →
      (exec caseTable keywordsList sched
        (Pipeline.start false lines numberOfProcesses)).allExited = true →
      (exec caseTable keywordsList sched
          (Pipeline.start false lines numberOfProcesses)).keywords.totalCount
        = (lines.map (fun line =>
            (currKeywordsCount caseTable keywordsList line).sumValues)).sum := by
    intro sched hs hx
    have := exec_final caseTable keywordsList (fun kw => kw.totalCount)
      (fun line => (currKeywordsCount caseTable keywordsList line).sumValues)
      (fun kw line => UpdateValue_total kw _) lines numberOfProcesses hn sched hs hx
    simpa [keyWords.init] using this
  constructor
  · obtain ⟨m, rfl⟩ : ∃ m, numberOfProcesses = m + 1 := ⟨numberOfProcesses - 1, by omega⟩
    exact ⟨serialSchedule lines.length (m + 1), noCancel_serialSchedule _ _,
      exec_serialSchedule caseTable keywordsList m lines keyWords.init⟩
  · intro sched hs hx
    refine ⟨fun k hk => ?_, ?_, fun hl => ⟨fun k => ?_, ?_⟩⟩
    · rw [hget k sched hs hx]
      congr 1
      apply List.map_congr_left
      intro line _
      rw [currKeywordsCount_get, if_pos hk, lineCount]
    · rw [htot sched hs hx]
      congr 1
      apply List.map_congr_left
      intro line _
      rw [currKeywordsCount_sumValues]
      rfl
    · rw [hget k sched hs hx, hl]
      rfl
    · rw [htot sched hs hx, hl]
      rfl

/-- C3 on the scenario of the specification: keywords `cat`, `dog`, the three
lines, three workers and a schedule that merges the lines out of file order
give `cat = 2`, `dog = 1` and total `3`. -/
theorem C3_tally_is_sum_over_lines_witness :
    1 ≤ 3 ∧ noCancel exampleSchedule = true ∧
    (exec emptyCaseTable exampleKeywords exampleSchedule
      (Pipeline.start false exampleLines 3)).allExited = true ∧
    (exec emptyCaseTable exampleKeywords exampleSchedule
      (Pipeline.start false exampleLines 3)).keywords.wordCount.get "cat".toList = 2 ∧
    (exec emptyCaseTable exampleKeywords exampleSchedule
      (Pipeline.start false exampleLines 3)).keywords.wordCount.get "dog".toList = 1 ∧
    (exec emptyCaseTable exampleKeywords exampleSchedule
      (Pipeline.start false exampleLines 3)).keywords.totalCount = 3 := by
  have h := (C3_tally_is_sum_over_lines emptyCaseTable exampleKeywords exampleLines 3
    (by decide)).2 exampleSchedule (by decide) (by decide)
  refine ⟨by decide, by decide, by decide, ?_, ?_, ?_⟩
  · rw [h.1 "cat".toList (by decide)]
    decide
  · rw [h.1 "dog".toList (by decide)]
    decide
  · rw [h.2.1]
    decide

/-- C4: merging partial tallies is order-independent. Merging `p` then `q`
leaves the same counts and total as merging `q` then `p`; merging a sequence of
partial tallies in any permutation leaves the same counts and total; hence two
complete executions without cancellation on the same keyword list and input,
with any worker counts of at least 1 and any schedules, end with the same
counts and total and print the same report. -/
theorem C4_merge_order_independent (caseTable : Char → Char) :
    (∀ (kw : keyWords) (p q : GoMap),
      ((kw.UpdateValue p).UpdateValue q).Same ((kw.UpdateValue q).UpdateValue p)) ∧
    (∀ (kw : keyWords) (ps qs : List GoMap), ps.Perm qs →
      (ps.foldl keyWords.UpdateValue kw).Same (qs.foldl keyWords.UpdateValue kw)) ∧
    (∀ (keywordsList lines : List GoString) (n1 n2 : Nat) (s1 s2 : List Action),
      1 ≤ n1 → 1 ≤ n2 → noCancel s1 = true → noCancel s2 = true →
      (exec caseTable keywordsList s1 (Pipeline.start false lines n1)).allExited = true →
      (exec caseTable keywordsList s2 (Pipeline.start false lines n2)).allExited = true →
      (exec caseTable keywordsList s1 (Pipeline.start false lines n1)).keywords.Same
        (exec caseTable keywordsList s2 (Pipeline.start false lines n2)).keywords ∧
      write keywordsList (exec caseTable keywordsList s1 (Pipeline.start false lines n1)).keywords []
        = write keywordsList
            (exec caseTable keywordsList s2 (Pipeline.start false lines n2)).keywords []) := by
  refine ⟨fun kw p q => ⟨fun k => ?_, ?_⟩, fun kw ps qs h => ⟨fun k => ?_, ?_⟩, ?_⟩
  · simp only [UpdateValue_get]
    ring
  · simp only [UpdateValue_total]
    ring
  · rw [foldl_UpdateValue_get, foldl_UpdateValue_get, (h.map (fun p => p.get k)).sum_eq]
  · rw [foldl_UpdateValue_total, foldl_UpdateValue_total, (h.map GoMap.sumValues).sum_eq]
  · intro keywordsList lines n1 n2 s1 s2 h1 h2 hs1 hs2 hx1 hx2
    have hsame : (exec caseTable keywordsList s1 (Pipeline.start false lines n1)).keywords.Same
        (exec caseTable keywordsList s2 (Pipeline.start false lines n2)).keywords := by
      constructor
      · intro k
        rw [exec_final caseTable keywordsList (fun kw => kw.wordCount.get k)
            (fun line => (currKeywordsCount caseTable keywordsList line).get k)
            (fun kw line => UpdateValue_get kw _ k) lines n1 h1 s1 hs1 hx1,
          exec_final caseTable keywordsList (fun kw => kw.wordCount.get k)
            (fun line => (currKeywordsCount caseTable keywordsList line).get k)
            (fun kw line => UpdateValue_get kw _ k) lines n2 h2 s2 hs2 hx2]
      · rw [exec_final caseTable keywordsList (fun kw => kw.totalCount)
            (fun line => (currKeywordsCount caseTable keywordsList line).sumValues)
            (fun kw line => UpdateValue_total kw _) lines n1 h1 s1 hs1 hx1,
          exec_final caseTable keywordsList (fun kw => kw.totalCount)
            (fun line => (currKeywordsCount caseTable keywordsList line).sumValues)
            (fun kw line => UpdateValue_total kw _) lines n2 h2 s2 hs2 hx2]
    exact ⟨hsame, write_congr keywordsList _ _ [] hsame⟩

/-- C4 on the scenario of the specification: one worker taking the lines in
file order and eight workers print the same report as three workers merging
out of file order, `cat: 2`, `dog: 1`, total `3`. -/
theorem C4_merge_order_independent_witness :
    write exampleKeywords (exec emptyCaseTable exampleKeywords (serialSchedule 3 1)
        (Pipeline.start false exampleLines 1)).keywords []
      = write exampleKeywords (exec emptyCaseTable exampleKeywords (serialSchedule 3 8)
        (Pipeline.start false exampleLines 8)).keywords [] ∧
    write exampleKeywords (exec emptyCaseTable exampleKeywords (serialSchedule 3 1)
        (Pipeline.start false exampleLines 1)).keywords []
      = write exampleKeywords (exec emptyCaseTable exampleKeywords exampleSchedule
        (Pipeline.start false exampleLines 3)).keywords [] ∧
    write exampleKeywords (exec emptyCaseTable exampleKeywords exampleSchedule
        (Pipeline.start false exampleLines 3)).keywords []
      = ["cat: 2".toList, "dog: 1".toList, "всего: 3".toList] :=
  ⟨((C4_merge_order_independent emptyCaseTable).2.2 exampleKeywords exampleLines 1 8
      (serialSchedule 3 1) (serialSchedule 3 8) (by decide) (by decide) (by decide) (by decide)
      (by decide) (by decide)).2,
   ((C4_merge_order_independent emptyCaseTable).2.2 exampleKeywords exampleLines 1 3
      (serialSchedule 3 1) exampleSchedule (by decide) (by decide) (by decide) (by decide)
      (by decide) (by decide)).2,
   by decide⟩

/-- C5: the tally invariant, that the total equals the sum of all values
stored in the map of counts. It holds for the tally created at the start of a
run, every call of `UpdateValue` with any partial tally preserves it, it holds
after any finite sequence of merges, and it holds in every state the
goroutines of `run` can reach. -/
theorem C5_total_is_sum_of_counts :
    keyWords.init.totalCount = keyWords.init.wordCount.sumValues ∧
    (∀ (kw : keyWords) (curr : GoMap), kw.totalCount = kw.wordCount.sumValues →
      (kw.UpdateValue curr).totalCount = (kw.UpdateValue curr).wordCount.sumValues) ∧
    (∀ (ps : List GoMap),
      (ps.foldl keyWords.UpdateValue keyWords.init).totalCount
        = (ps.foldl keyWords.UpdateValue keyWords.init).wordCount.sumValues) ∧
    (∀ (caseTable : Char → Char) (keywordsList lines : List GoString) (sched : List Action)
      (ctx : Bool) (n : Nat),
      (exec caseTable keywordsList sched (Pipeline.start ctx lines n)).keywords.totalCount
        = (exec caseTable keywordsList sched
            (Pipeline.start ctx lines n)).keywords.wordCount.sumValues) :=
  ⟨rfl, fun kw curr h => UpdateValue_Inv kw curr h,
    fun ps => foldl_UpdateValue_Inv ps keyWords.init rfl,
    fun caseTable keywordsList lines sched ctx n =>
      (exec_tally caseTable keywordsList sched ctx lines n).1⟩

/-- C5 on the scenario of the specification: after the partial tallies of the
first two lines are merged the total is `3`, which is the sum of the stored
counts `2` and `1`. -/
theorem C5_total_is_sum_of_counts_witness :
    ((keyWords.init.UpdateValue
        (currKeywordsCount emptyCaseTable exampleKeywords "the cat sat".toList)).UpdateValue
        (currKeywordsCount emptyCaseTable exampleKeywords "dog eats cat food".toList)).totalCount
      = 3 ∧
    ((keyWords.init.UpdateValue
        (currKeywordsCount emptyCaseTable exampleKeywords "the cat sat".toList)).UpdateValue
        (currKeywordsCount emptyCaseTable exampleKeywords
          "dog eats cat food".toList)).wordCount.sumValues = 3 := by
  have h := C5_total_is_sum_of_counts.2.1
    (keyWords.init.UpdateValue
      (currKeywordsCount emptyCaseTable exampleKeywords "the cat sat".toList))
    (currKeywordsCount emptyCaseTable exampleKeywords "dog eats cat food".toList)
    (C5_total_is_sum_of_counts.2.1 keyWords.init _ C5_total_is_sum_of_counts.1)
  have h3 : ((keyWords.init.UpdateValue
        (currKeywordsCount emptyCaseTable exampleKeywords "the cat sat".toList)).UpdateValue
        (currKeywordsCount emptyCaseTable exampleKeywords "dog eats cat food".toList)).totalCount
      = 3 := by decide
  exact ⟨h3, h ▸ h3⟩

/-- C6 fails for a keyword list that repeats a keyword: with the keyword file
listing `cat` twice and the scenario's input, the completed run prints
`cat: 2` twice and the total `2`, while the counts printed on the per-keyword
lines add up to `4`. -/
theorem C6_repeated_keyword_counterexample :
    run emptyCaseTable exampleFiles (serialSchedule 3 1) false "input.txt".toList
        "twice.txt".toList 1
      = { stdout := [reportLine "cat".toList 2, reportLine "cat".toList 2,
                     reportLine "всего".toList 2]
          outcome := Outcome.returned none } ∧
    [reportLine "cat".toList 2, reportLine "cat".toList 2, reportLine "всего".toList 2]
      = ["cat: 2".toList, "cat: 2".toList, "всего: 2".toList] ∧
    ([2, 2] : List Int).sum ≠ 2 := by
  decide

/-- C6, amended: for every keyword list without repeated keywords and every
input, a run that returns success has printed one line per keyword and a last
line whose total is the sum of the counts printed on the per-keyword lines. -/
theorem C6_total_is_sum_of_printed_counts (caseTable : Char → Char) (fs : FileSystem)
    (sched : List Action) (ctx : Bool) (filePathInput filePathKeywords : GoString)
    (numberOfProcesses : Int) (keywordsList : List GoString)
    (hk : fs filePathKeywords = some keywordsList) (hnd : keywordsList.Nodup)
    (hr : (run caseTable fs sched ctx filePathInput filePathKeywords numberOfProcesses).outcome
      = Outcome.returned none) :
    ∃ counts : List Int, counts.length = keywordsList.length ∧
      (run caseTable fs sched ctx filePathInput filePathKeywords numberOfProcesses).stdout
        = List.zipWith reportLine keywordsList counts
          ++ [reportLine "всего".toList counts.sum] := by
  simp only [run, getKeyWordsFromFile, hk] at hr ⊢
  cases hi : fs filePathInput with
  | none => simp [hi] at hr
  | some input =>
    simp only [hi] at hr ⊢
    by_cases hneg : numberOfProcesses < 0
    · simp [hneg] at hr
    · simp only [hneg, if_false] at hr ⊢
      by_cases hx : (exec caseTable keywordsList sched
          (Pipeline.start ctx input numberOfProcesses.toNat)).allExited = true
      · simp only [hx, if_true] at hr ⊢
        have ht := exec_tally caseTable keywordsList sched ctx input numberOfProcesses.toNat
        refine ⟨keywordsList.map (exec caseTable keywordsList sched
          (Pipeline.start ctx input numberOfProcesses.toNat)).keywords.wordCount.get,
          by simp, ?_⟩
        rw [write_eq, zipWith_reportLine, GoMap.sum_get_of_keys_subset _ keywordsList hnd ht.2,
          ← ht.1]
        simp
      · simp [hx] at hr

/-- C6 on the scenario of the specification: the run with three workers
succeeds and prints `cat: 2`, `dog: 1` and the total `3 = 2 + 1`. -/
theorem C6_total_is_sum_of_printed_counts_witness :
    exampleFiles "keywords.txt".toList = some exampleKeywords ∧ exampleKeywords.Nodup ∧
    run emptyCaseTable exampleFiles exampleSchedule false "input.txt".toList
        "keywords.txt".toList 3
      = { stdout := ["cat: 2".toList, "dog: 1".toList, "всего: 3".toList]
          outcome := Outcome.returned none } ∧
    ∃ counts : List Int, counts.length = exampleKeywords.length ∧
      (run emptyCaseTable exampleFiles exampleSchedule false "input.txt".toList
        "keywords.txt".toList 3).stdout
        = List.zipWith reportLine exampleKeywords counts
          ++ [reportLine "всего".toList counts.sum] :=
  ⟨by decide, by decide, by decide,
    C6_total_is_sum_of_printed_counts emptyCaseTable exampleFiles exampleSchedule false
      "input.txt".toList "keywords.txt".toList 3 exampleKeywords (by decide) (by decide)
      (by decide)⟩

/-- C7: for every line and every non-empty keyword, the count the worker
computes is the number of occurrences a left-to-right scan of the lower-cased
line finds; these occurrences are pairwise disjoint, and no family of pairwise
disjoint occurrences of the keyword in the lower-cased line is larger. -/
theorem C7_count_is_non_overlapping (caseTable : Char → Char) (readLine word : GoString)
    (hword : word ≠ []) :
    lineCount caseTable readLine word
      = ((scanOccs word (strings_ToLower caseTable readLine).length
          (strings_ToLower caseTable readLine)).length : Int) ∧
    disjointOccs (strings_ToLower caseTable readLine) word 0
      (scanOccs word (strings_ToLower caseTable readLine).length
        (strings_ToLower caseTable readLine)) = true ∧
    ∀ ps : List Nat, disjointOccs (strings_ToLower caseTable readLine) word 0 ps = true →
      (ps.length : Int) ≤ lineCount caseTable readLine word := by
  refine ⟨?_, scanOccs_disjoint word _ _, fun ps hps => ?_⟩
  · simp only [lineCount, strings_Count, hword, if_false, countLoop_eq_scanOccs]
  · simp only [lineCount, strings_Count, hword, if_false]
    exact_mod_cast disjointOccs_length_le hword _ _ 0 ps (Nat.le_refl _) hps

/-- C7 on the example of the specification: in the line `aaa` the keyword `aa`
is counted once, not twice; the scan finds the occurrence at position 0, and
the occurrences at positions 0 and 1 overlap. -/
theorem C7_count_is_non_overlapping_witness :
    "aa".toList ≠ [] ∧
    lineCount emptyCaseTable "aaa".toList "aa".toList = 1 ∧
    lineCount emptyCaseTable "aaa".toList "aa".toList ≠ 2 ∧
    scanOccs "aa".toList 3 "aaa".toList = [0] ∧
    disjointOccs "aaa".toList "aa".toList 0 [0, 1] = false := by
  have h := (C7_count_is_non_overlapping emptyCaseTable "aaa".toList "aa".toList (by decide)).1
  have hs : scanOccs "aa".toList (strings_ToLower emptyCaseTable "aaa".toList).length
      (strings_ToLower emptyCaseTable "aaa".toList) = [0] := by decide
  rw [hs] at h
  exact ⟨by decide, h, by rw [h]; decide, by decide, by decide⟩

/-- C8 fails for the error of the cancellation context: when the caller
cancels the context after the first line was merged, `run` with one worker
prints the report of that one line and then returns the context's error. -/
theorem C8_cancelled_run_prints_report_counterexample :
    run emptyCaseTable exampleFiles
        [Action.read, Action.work 0, Action.work 0, Action.cancel, Action.read, Action.work 0]
        false "input.txt".toList "keywords.txt".toList 1
      = { stdout := ["cat: 1".toList, "dog: 0".toList, "всего: 1".toList]
          outcome := Outcome.returned (some RunError.ctxCanceled) } := by
  decide

/-- C8, amended: for every invocation of `run`, if it returns the keyword-file
error or the input-file error then nothing has been printed; a report is
printed only by a run that returns success or the error of the cancellation
context; and a run that returns the context's error has printed, before
returning it, the whole report of the tally as the workers left it, which is
the report of the lines merged until then: these are the first `m` lines of
the input for some `m`, every keyword of the list has its line with its count
in these lines, in the order of the list, and the last line is the total over
these lines. -/
theorem C8_file_errors_print_nothing (caseTable : Char → Char) (fs : FileSystem)
    (sched : List Action) (ctx : Bool) (filePathInput filePathKeywords : GoString)
    (numberOfProcesses : Int) :
    ((run caseTable fs sched ctx filePathInput filePathKeywords numberOfProcesses).outcome
        = Outcome.returned (some RunError.ErrOpenFileKeywords) →
      (run caseTable fs sched ctx filePathInput filePathKeywords numberOfProcesses).stdout = []) ∧
    ((run caseTable fs sched ctx filePathInput filePathKeywords numberOfProcesses).outcome
        = Outcome.returned (some RunError.ErrOpenFileText) →
      (run caseTable fs sched ctx filePathInput filePathKeywords numberOfProcesses).stdout = []) ∧
    ((run caseTable fs sched ctx filePathInput filePathKeywords numberOfProcesses).stdout ≠ [] →
      (run caseTable fs sched ctx filePathInput filePathKeywords numberOfProcesses).outcome
          = Outcome.returned none ∨
      (run caseTable fs sched ctx filePathInput filePathKeywords numberOfProcesses).outcome
          = Outcome.returned (some RunError.ctxCanceled)) ∧
    ((run caseTable fs sched ctx filePathInput filePathKeywords numberOfProcesses).outcome
        = Outcome.returned (some RunError.ctxCanceled) →
      ∃ (keywordsList input : List GoString) (m : Nat),
        fs filePathKeywords = some keywordsList ∧ fs filePathInput = some input ∧
        (run caseTable fs sched ctx filePathInput filePathKeywords numberOfProcesses).stdout
          = write keywordsList (exec caseTable keywordsList sched
              (Pipeline.start ctx input numberOfProcesses.toNat)).keywords [] ∧
        (run caseTable fs sched ctx filePathInput filePathKeywords numberOfProcesses).stdout
          = keywordsList.map (fun word => reportLine word
              ((input.take m).map (fun line => lineCount caseTable line word)).sum)
            ++ [reportLine "всего".toList
              ((input.take m).map
                (fun line => (keywordsList.dedup.map (lineCount caseTable line)).sum)).sum]) := by
  simp only [run, getKeyWordsFromFile]
  cases hk : fs filePathKeywords with
  | none => simp
  | some keywordsList =>
    cases hi : fs filePathInput with
    | none => simp
    | some input =>
      by_cases hneg : numberOfProcesses < 0
      · simp [hneg]
      · by_cases hx : (exec caseTable keywordsList sched
            (Pipeline.start ctx input numberOfProcesses.toNat)).allExited = true
        · obtain ⟨m, hm⟩ := write_of_allExited caseTable keywordsList input sched ctx
            numberOfProcesses.toNat hx
          cases hd : (exec caseTable keywordsList sched
              (Pipeline.start ctx input numberOfProcesses.toNat)).ctxDone
          · simp [hneg, hx, hd]
          · simp only [hneg, hx, hd, if_true, if_false]
            refine ⟨by simp, by simp, by simp,
              fun _ => ⟨keywordsList, input, m, rfl, rfl, rfl, hm⟩⟩
        · simp [hneg, hx]

/-- C8 on concrete runs: with a missing keyword file `run` returns the
keyword-file error, with a missing input file the input-file error, and in
both cases it has printed nothing; the run with one worker that is cancelled
after the first line was merged returns the context's error after printing
`cat: 1`, `dog: 0` and the total `1`, the report of the first line. -/
theorem C8_file_errors_print_nothing_witness :
    run emptyCaseTable exampleFiles exampleSchedule false "input.txt".toList
        "missing.txt".toList 3
      = { stdout := [], outcome := Outcome.returned (some RunError.ErrOpenFileKeywords) } ∧
    (run emptyCaseTable exampleFiles exampleSchedule false "input.txt".toList
        "missing.txt".toList 3).stdout = [] ∧
    run emptyCaseTable exampleFiles exampleSchedule false "missing.txt".toList
        "keywords.txt".toList 3
      = { stdout := [], outcome := Outcome.returned (some RunError.ErrOpenFileText) } ∧
    (run emptyCaseTable exampleFiles exampleSchedule false "missing.txt".toList
        "keywords.txt".toList 3).stdout = [] ∧
    (run emptyCaseTable exampleFiles
        [Action.read, Action.work 0, Action.work 0, Action.cancel, Action.read, Action.work 0]
        false "input.txt".toList "keywords.txt".toList 1).outcome
      = Outcome.returned (some RunError.ctxCanceled) ∧
    (run emptyCaseTable exampleFiles
        [Action.read, Action.work 0, Action.work 0, Action.cancel, Action.read, Action.work 0]
        false "input.txt".toList "keywords.txt".toList 1).stdout
      = exampleKeywords.map (fun word => reportLine word
          ((exampleLines.take 1).map (fun line => lineCount emptyCaseTable line word)).sum)
        ++ [reportLine "всего".toList
          ((exampleLines.take 1).map
            (fun line => (exampleKeywords.dedup.map (lineCount emptyCaseTable line)).sum)).sum] ∧
    (∃ (keywordsList input : List GoString) (m : Nat),
      exampleFiles "keywords.txt".toList = some keywordsList ∧
      exampleFiles "input.txt".toList = some input ∧
      (run emptyCaseTable exampleFiles
        [Action.read, Action.work 0, Action.work 0, Action.cancel, Action.read, Action.work 0]
        false "input.txt".toList "keywords.txt".toList 1).stdout
        = write keywordsList (exec emptyCaseTable keywordsList
            [Action.read, Action.work 0, Action.work 0, Action.cancel, Action.read,
             Action.work 0]
            (Pipeline.start false input (1 : Int).toNat)).keywords [] ∧
      (run emptyCaseTable exampleFiles
        [Action.read, Action.work 0, Action.work 0, Action.cancel, Action.read, Action.work 0]
        false "input.txt".toList "keywords.txt".toList 1).stdout
        = keywordsList.map (fun word => reportLine word
            ((input.take m).map (fun line => lineCount emptyCaseTable line word)).sum)
          ++ [reportLine "всего".toList
            ((input.take m).map
              (fun line => (keywordsList.dedup.map (lineCount emptyCaseTable line)).sum)).sum]) :=
  ⟨by decide,
   (C8_file_errors_print_nothing emptyCaseTable exampleFiles exampleSchedule false
      "input.txt".toList "missing.txt".toList 3).1 (by decide),
   by decide,
   (C8_file_errors_print_nothing emptyCaseTable exampleFiles exampleSchedule false
      "missing.txt".toList "keywords.txt".toList 3).2.1 (by decide),
   by decide,
   by decide,
   (C8_file_errors_print_nothing emptyCaseTable exampleFiles
      [Action.read, Action.work 0, Action.work 0, Action.cancel, Action.read, Action.work 0]
      false "input.txt".toList "keywords.txt".toList 1).2.2.2 (by decide)⟩

/-- C9: for every keyword list of length `n` and every tally, `write` emits
exactly `n + 1` lines; line `i < n` is the `i`-th keyword of the list, a colon
and a blank, and the count the tally holds for it, in the order of the list;
the last line is the label and the total; and the count of a keyword with no
entry in the tally is `0`. -/
theorem C9_report_format (keywordsList : List GoString) (keywords : keyWords) :
    (write keywordsList keywords []).length = keywordsList.length + 1 ∧
    (∀ i, i < keywordsList.length →
      (write keywordsList keywords [])[i]?
        = (keywordsList[i]?).map
            (fun word => word ++ ": ".toList ++ fmtInt (keywords.wordCount.get word))) ∧
    (write keywordsList keywords [])[keywordsList.length]?
      = some ("всего: ".toList ++ fmtInt keywords.totalCount) ∧
    (∀ word, word ∉ keywords.wordCount.keys → keywords.wordCount.get word = 0) := by
  rw [write_eq]
  refine ⟨by simp, fun i hi => ?_, ?_, fun word h => keywords.wordCount.get_of_not_mem_keys word h⟩
  · rw [List.nil_append, List.getElem?_append_left (by simpa using hi), List.getElem?_map]
    rfl
  · rw [List.nil_append, List.getElem?_append_right (by simp)]
    simp only [List.length_map, Nat.sub_self, List.getElem?_cons_zero, reportLine]
    rfl

/-- C9 on a concrete tally: with the keyword list `cat`, `dog` and a tally that
holds `cat = 2` only, `write` prints `cat: 2`, `dog: 0` and the total. -/
theorem C9_report_format_witness :
    write exampleKeywords
        { wordCount := GoMap.empty.set "cat".toList 2, totalCount := 2 } []
      = ["cat: 2".toList, "dog: 0".toList, "всего: 2".toList] ∧
    (write exampleKeywords
        { wordCount := GoMap.empty.set "cat".toList 2, totalCount := 2 } [])[1]?
      = some ("dog: 0".toList) := by
  have h := (C9_report_format exampleKeywords
    { wordCount := GoMap.empty.set "cat".toList 2, totalCount := 2 }).2.1 1 (by decide)
  exact ⟨by decide, h.trans (by decide)⟩

/-- C10 fails in its last clause when another keyword of the list occurs in
the line: with the keyword list holding the empty string and `cat`, the count
of the empty keyword in the line `Cat` is `4`, but merging the line raises the
total by `5`, not by `4`. -/
theorem C10_total_rises_by_more_counterexample :
    ([] : GoString) ∈ [[], "cat".toList] ∧
    lineCount emptyCaseTable "Cat".toList [] = 4 ∧
    (keyWords.init.UpdateValue
      (currKeywordsCount emptyCaseTable [[], "cat".toList] "Cat".toList)).totalCount
      = keyWords.init.totalCount + 5 ∧
    (keyWords.init.UpdateValue
      (currKeywordsCount emptyCaseTable [[], "cat".toList] "Cat".toList)).totalCount
      ≠ keyWords.init.totalCount + lineCount emptyCaseTable "Cat".toList [] := by
  decide

/-- C10, amended: when the keyword list contains the empty string, the count the worker
computes for it on a line is the number of code points of the lower-cased line
(which is that of the line) plus one, so at least 1. Merging the line's
partial tally raises the count of the empty keyword by exactly that amount and
the total by that amount plus the counts of the other distinct keywords, which
are not negative; the pass of the loop of `UpdateValue` for the empty keyword
raises both its count and the total by exactly that amount. -/
theorem C10_empty_keyword (caseTable : Char → Char) (keywordsList : List GoString)
    (readLine : GoString) (kw : keyWords) (h : [] ∈ keywordsList) :
    lineCount caseTable readLine [] = ((strings_ToLower caseTable readLine).length : Int) + 1 ∧
    (strings_ToLower caseTable readLine).length = readLine.length ∧
    1 ≤ lineCount caseTable readLine [] ∧
    (kw.UpdateValue (currKeywordsCount caseTable keywordsList readLine)).wordCount.get []
      = kw.wordCount.get [] + (((strings_ToLower caseTable readLine).length : Int) + 1) ∧
    (kw.UpdateValue (currKeywordsCount caseTable keywordsList readLine)).totalCount
      = kw.totalCount + (((strings_ToLower caseTable readLine).length : Int) + 1)
        + ((keywordsList.dedup.filter (fun k => k ≠ [])).map
            (lineCount caseTable readLine)).sum ∧
    0 ≤ ((keywordsList.dedup.filter (fun k => k ≠ [])).map
            (lineCount caseTable readLine)).sum ∧
    (mergeWord (currKeywordsCount caseTable keywordsList readLine) kw []).wordCount.get []
      = kw.wordCount.get [] + (((strings_ToLower caseTable readLine).length : Int) + 1) ∧
    (mergeWord (currKeywordsCount caseTable keywordsList readLine) kw []).totalCount
      = kw.totalCount + (((strings_ToLower caseTable readLine).length : Int) + 1) := by
  have hc : lineCount caseTable readLine []
      = ((strings_ToLower caseTable readLine).length : Int) + 1 := by
    simp [lineCount, strings_Count]
  refine ⟨hc, by simp [strings_ToLower], by rw [hc]; omega, ?_, ?_, ?_, ?_, ?_⟩
  · rw [UpdateValue_get, currKeywordsCount_get, if_pos h, hc]
  · rw [UpdateValue_total, currKeywordsCount_sumValues,
      sum_split_filter (lineCount caseTable readLine) [] keywordsList.dedup
        (List.nodup_dedup _) (List.mem_dedup.2 h), hc]
    simp only [ne_eq, decide_not]
    ring
  · apply List.sum_nonneg
    intro x hx
    obtain ⟨k, _, rfl⟩ := List.mem_map.1 hx
    simp [lineCount]
  · simp only [mergeWord, GoMap.get_set, if_true, currKeywordsCount_get, if_pos h, hc]
  · simp only [mergeWord, currKeywordsCount_get, if_pos h, hc]

/-- C10 on concrete lines: with the keyword list holding the empty string and
`cat`, the empty keyword is counted `4` times in the line `Cat` and once in the
empty line, and merging the line `Cat` into the empty tally gives the count
`4` and the total `4 + 1`. -/
theorem C10_empty_keyword_witness :
    ([] : GoString) ∈ [[], "cat".toList] ∧
    lineCount emptyCaseTable "Cat".toList [] = 4 ∧
    lineCount emptyCaseTable [] [] = 1 ∧
    (keyWords.init.UpdateValue
      (currKeywordsCount emptyCaseTable [[], "cat".toList] "Cat".toList)).wordCount.get [] = 4 ∧
    (keyWords.init.UpdateValue
      (currKeywordsCount emptyCaseTable [[], "cat".toList] "Cat".toList)).totalCount = 5 := by
  have h := C10_empty_keyword emptyCaseTable [[], "cat".toList] "Cat".toList keyWords.init
    (by decide)
  exact ⟨by decide, h.1.trans (by decide), by decide, h.2.2.2.1.trans (by decide), by decide⟩

end Homework2
